import Mathlib

/-!
# Verification of the FunGen funscript engine and analysis pipeline

This file gives a shallow embedding, in Lean 4, of the core data structures and
algorithms of the FunGen repository (the `DualAxisFunscript` action store and its
transformation algorithms, the `AppStageProcessor` orchestrator control flow, the
`Stage3OpticalFlowProcessor` segment loop and the `KeyframePlugin`), together with
theorems settling the testable properties stated in the specification.

Modelling conventions:
* Python `int` is modelled by `Int` (arbitrary precision in Python as well).
* Python `float` arithmetic is modelled by exact rational arithmetic (`ℚ`); every
  place where this matters is noted next to the definition.
* Python lists of `{"at": .., "pos": ..}` dicts are modelled by `List Action`.
* In-place mutation is modelled by explicit state passing: a method that mutates
  `self` becomes a function from the old state to the new state.
* `int(x)` (truncation towards zero) is `pyInt`, `round(x)` (round-half-to-even)
  is `pyRound`.
-/

namespace FunGen

/-- One funscript control point: the `{"at": ms, "pos": value}` dict of the source.
`at` is a Lean keyword, so the field is called `atMs`. -/
structure Action where
  atMs : Int
  pos : Int
deriving Repr, DecidableEq

/-- Python `int(x)` on a float: truncation towards zero. -/
def pyInt (q : ℚ) : Int := if 0 ≤ q then ⌊q⌋ else ⌈q⌉

/-- Python `round(x)` on a float: round half to even. -/
def pyRound (q : ℚ) : Int :=
  let f := ⌊q⌋
  let r := q - (f : ℚ)
  if r < 1/2 then f
  else if 1/2 < r then f + 1
  else if f % 2 = 0 then f else f + 1

/-- `max(0, min(100, pos))`, the clamp used throughout `dual_axis_funscript.py`. -/
def clampPos (p : Int) : Int := max 0 (min 100 p)

/-! ## `DualAxisFunscript` state (src/funscript/dual_axis_funscript.py lines 22-35) -/

structure DualAxisFunscript where
  primary_actions : List Action
  secondary_actions : List Action
  min_interval_ms : Int
  last_timestamp_primary : Int
  last_timestamp_secondary : Int
deriving Repr, DecidableEq

/-- The state `DualAxisFunscript.__init__` builds: empty axes, `min_interval_ms = 20`. -/
def DualAxisFunscript.init : DualAxisFunscript :=
  { primary_actions := []
    secondary_actions := []
    min_interval_ms := 20
    last_timestamp_primary := 0
    last_timestamp_secondary := 0 }

/-- `bisect.bisect_left(action_timestamps, timestamp_ms)`.  On the sorted lists the
store maintains (proved below), Python's binary search returns the number of
entries strictly below the probe, which is how we express it on the list. -/
def bisectLeft (ts : List Int) (x : Int) : Nat := ts.countP (fun a => decide (a < x))

/-- `bisect.bisect_right(action_timestamps, timestamp_ms)` on a sorted list:
the number of entries `≤` the probe. -/
def bisectRight (ts : List Int) (x : Int) : Nat := ts.countP (fun a => decide (a ≤ x))

/-- The compaction loop of `_process_action_for_axis` (lines 85-98): starting from
the last kept action, keep each following action whose gap from the last kept one
is `≥ min_interval_ms`, dropping the others.  This is the functional reading of the
in-place `current_valid_idx` loop plus the final `del` trim. -/
def minIntervalGo (m : Int) : Action → List Action → List Action
  | _, [] => []
  | last, x :: xs =>
    if m ≤ x.atMs - last.atMs then x :: minIntervalGo m x xs
    else minIntervalGo m last xs

/-- The whole `min_interval_ms` re-filter pass: the first action is always kept. -/
def minIntervalFilter (m : Int) : List Action → List Action
  | [] => []
  | h :: t => h :: minIntervalGo m h t

/-- `actions_target_list[-1]["at"] if actions_target_list else 0`. -/
def lastAtOrZero (l : List Action) : Int :=
  match l.getLast? with
  | some a => a.atMs
  | none => 0

/-- `DualAxisFunscript._process_action_for_axis` (lines 37-100).  Returns the new
list; the returned "last timestamp" is recovered by `lastAtOrZero`.  The
`is_from_live_tracker` argument is unused by the source body and omitted. -/
def processActionForAxis (l : List Action) (timestamp_ms : Int) (pos : Int)
    (min_interval_ms : Int) : List Action :=
  let clamped := clampPos pos
  let idx := bisectLeft (l.map (·.atMs)) timestamp_ms
  match l.get? idx with
  | some a =>
    if a.atMs = timestamp_ms then
      -- timestamp exists: update position if different
      if a.pos ≠ clamped then
        let l2 := l.set idx { atMs := a.atMs, pos := clamped }
        if 0 < min_interval_ms then minIntervalFilter min_interval_ms l2 else l2
      else l
    else
      -- insert, unless the gap to the predecessor is too small
      let canInsert :=
        if 0 < idx then
          match l.get? (idx - 1) with
          | some prev => decide (min_interval_ms ≤ timestamp_ms - prev.atMs)
          | none => true
        else true
      if canInsert then
        let l2 := l.take idx ++ { atMs := timestamp_ms, pos := clamped } :: l.drop idx
        if 0 < min_interval_ms then minIntervalFilter min_interval_ms l2 else l2
      else l
  | none =>
    let canInsert :=
      if 0 < idx then
        match l.get? (idx - 1) with
        | some prev => decide (min_interval_ms ≤ timestamp_ms - prev.atMs)
        | none => true
      else true
    if canInsert then
      let l2 := l.take idx ++ { atMs := timestamp_ms, pos := clamped } :: l.drop idx
      if 0 < min_interval_ms then minIntervalFilter min_interval_ms l2 else l2
    else l

/-- `DualAxisFunscript.add_action` (lines 102-136).  Note the source asymmetry:
`last_timestamp_primary` is re-derived outside the `if primary_pos is not None`
block, while `last_timestamp_secondary` is only updated inside its block. -/
def addAction (s : DualAxisFunscript) (timestamp_ms : Int)
    (primary_pos : Option Int) (secondary_pos : Option Int) : DualAxisFunscript :=
  let s1 :=
    match primary_pos with
    | some p =>
      let newList := processActionForAxis s.primary_actions timestamp_ms p s.min_interval_ms
      { s with
        primary_actions := newList
        last_timestamp_primary := if newList ≠ [] then lastAtOrZero newList else 0 }
    | none =>
      { s with last_timestamp_primary :=
          if s.primary_actions ≠ [] then s.last_timestamp_primary else 0 }
  match secondary_pos with
  | some p =>
    let newList := processActionForAxis s1.secondary_actions timestamp_ms p s1.min_interval_ms
    { s1 with
      secondary_actions := newList
      last_timestamp_secondary := if newList ≠ [] then lastAtOrZero newList else 0 }
  | none => s1

/-- One `add_action(timestamp_ms, primary_pos, secondary_pos)` call's arguments. -/
structure AddCall where
  timestamp_ms : Int
  primary_pos : Option Int
  secondary_pos : Option Int

/-- Run a sequence of `add_action` calls against a store state. -/
def runAddCalls (s : DualAxisFunscript) (calls : List AddCall) : DualAxisFunscript :=
  calls.foldl (fun st c => addAction st c.timestamp_ms c.primary_pos c.secondary_pos) s

/-- Timestamps strictly increase along the list. -/
def SortedStrict (l : List Action) : Prop :=
  List.Chain' (fun a b => a.atMs < b.atMs) l

/-- Consecutive timestamps are at least `m` apart. -/
def Spaced (m : Int) (l : List Action) : Prop :=
  List.Chain' (fun a b => m ≤ b.atMs - a.atMs) l

instance (l : List Action) : Decidable (SortedStrict l) :=
  inferInstanceAs (Decidable (List.Chain' _ l))

instance (m : Int) (l : List Action) : Decidable (Spaced m l) :=
  inferInstanceAs (Decidable (List.Chain' _ l))

/-! ### C1: ordering invariant of the action store -/

theorem minIntervalGo_spaced (m : Int) (last : Action) (l : List Action) :
    List.Chain' (fun a b => m ≤ b.atMs - a.atMs) (last :: minIntervalGo m last l) := by
  induction l generalizing last with
  | nil => simp [minIntervalGo]
  | cons x xs ih =>
    unfold minIntervalGo
    by_cases h : m ≤ x.atMs - last.atMs
    · rw [if_pos h]
      exact List.Chain'.cons h (ih x)
    · rw [if_neg h]
      exact ih last

theorem minIntervalFilter_spaced (m : Int) (l : List Action) :
    Spaced m (minIntervalFilter m l) := by
  cases l with
  | nil => simp [Spaced, minIntervalFilter]
  | cons h t => exact minIntervalGo_spaced m h t

theorem processActionForAxis_spaced {m : Int} (hm : 0 < m) {l : List Action}
    (hl : Spaced m l) (ts p : Int) :
    Spaced m (processActionForAxis l ts p m) := by
  unfold processActionForAxis
  dsimp only
  repeat' split
  all_goals first
    | exact hl
    | exact minIntervalFilter_spaced m _

/-- The store invariant maintained across `add_action` calls. -/
def StoreInv (s : DualAxisFunscript) : Prop :=
  s.min_interval_ms = 20 ∧
  Spaced s.min_interval_ms s.primary_actions ∧
  Spaced s.min_interval_ms s.secondary_actions

theorem addAction_preserves_inv {s : DualAxisFunscript} (h : StoreInv s)
    (ts : Int) (pp sp : Option Int) : StoreInv (addAction s ts pp sp) := by
  obtain ⟨h20, hp, hs⟩ := h
  have hm : (0 : Int) < s.min_interval_ms := by rw [h20]; norm_num
  unfold addAction
  cases pp with
  | some p =>
    cases sp with
    | some q =>
      exact ⟨h20, processActionForAxis_spaced hm hp ts p,
        processActionForAxis_spaced hm hs ts q⟩
    | none =>
      exact ⟨h20, processActionForAxis_spaced hm hp ts p, hs⟩
  | none =>
    cases sp with
    | some q =>
      exact ⟨h20, hp, processActionForAxis_spaced hm hs ts q⟩
    | none => exact ⟨h20, hp, hs⟩

theorem runAddCalls_inv {s : DualAxisFunscript} (h : StoreInv s) (calls : List AddCall) :
    StoreInv (runAddCalls s calls) := by
  induction calls generalizing s with
  | nil => exact h
  | cons c cs ih =>
    exact ih (addAction_preserves_inv h c.timestamp_ms c.primary_pos c.secondary_pos)

theorem spaced_imp_le {m : Int} (hm : 0 < m) {l : List Action} (h : Spaced m l) :
    List.Chain' (fun a b => a.atMs ≤ b.atMs) l :=
  h.imp (fun hab => by omega)

/-- **C1.** Ordering invariant of the action store: for every sequence of
`add_action` calls on a freshly constructed `DualAxisFunscript`, each axis action
list is non-decreasing in `at`, and (the positive `min_interval_ms`, fixed at 20
by the constructor) every pair of consecutive entries differs in `at` by at least
`min_interval_ms`.  Since the prefix of any call sequence is itself a call
sequence, this settles the "after each call" form of the claim. -/
theorem add_action_ordering_invariant (calls : List AddCall) :
    let s := runAddCalls DualAxisFunscript.init calls
    0 < s.min_interval_ms ∧
    List.Chain' (fun a b => a.atMs ≤ b.atMs) s.primary_actions ∧
    List.Chain' (fun a b => a.atMs ≤ b.atMs) s.secondary_actions ∧
    Spaced s.min_interval_ms s.primary_actions ∧
    Spaced s.min_interval_ms s.secondary_actions := by
  intro s
  have hinit : StoreInv DualAxisFunscript.init := by
    refine ⟨rfl, ?_, ?_⟩ <;> simp [DualAxisFunscript.init, Spaced]
  obtain ⟨h20, hp, hs⟩ := runAddCalls_inv hinit calls
  have hm : (0 : Int) < s.min_interval_ms := by rw [h20]; norm_num
  exact ⟨hm, spaced_imp_le hm hp, spaced_imp_le hm hs, hp, hs⟩

/-! ## `simplify_to_keyframes` (src/funscript/dual_axis_funscript.py lines 1217-1289)

The three passes of the keyframe simplification, for the whole-list call
(`selected_indices=None`, the default): pass 1 collects local extrema, pass 2
iteratively pops the least significant interior extremum, pass 3 enforces the
time tolerance.  Significance is a float in the source (`float('inf')` when the
neighbour span has no duration); we model a finite significance by an exact
rational and infinity by `none`, with the source's `<` comparisons mirrored by
`sigLt` (`inf < x` is false, `x < inf` is true for finite `x`, matching IEEE). -/

/-- `x < y` where `none` plays the role of `float('inf')`. -/
def sigLt : Option ℚ → Option ℚ → Bool
  | some a, some b => decide (a < b)
  | some _, none => true
  | none, _ => false

/-- The significance of an interior extremum: the absolute deviation of its
position from the straight line between its two current neighbours, evaluated
at its own time-progress ratio (lines 1256-1266). -/
def significance (p_prev p_curr p_next : Action) : Option ℚ :=
  let duration : ℚ := ((p_next.atMs - p_prev.atMs : Int) : ℚ)
  if 0 < duration then
    let progress : ℚ := ((p_curr.atMs - p_prev.atMs : Int) : ℚ) / duration
    let projected : ℚ := (p_prev.pos : ℚ) + progress * ((p_next.pos : ℚ) - (p_prev.pos : ℚ))
    some |(p_curr.pos : ℚ) - projected|
  else none

/-- Pass 1 (lines 1243-1249): keep the first point, every interior point that is
a local extremum (`(>,≥)` peak or `(<,≤)` valley against its original
neighbours), and the last point.  `prev` is the original predecessor. -/
def extremaGo (prev : Action) : List Action → List Action
  | [] => []
  | [x] => [x]
  | x :: y :: t =>
    if (prev.pos < x.pos ∧ y.pos ≤ x.pos) ∨ (x.pos < prev.pos ∧ x.pos ≤ y.pos) then
      x :: extremaGo x (y :: t)
    else
      extremaGo x (y :: t)

def extremaPass : List Action → List Action
  | [] => []        -- unreachable behind the `len < 3` guard (`segment[0]` would raise)
  | [h] => [h, h]   -- degenerate: `segment[0]` and `segment[-1]` are the same point
  | h :: t => h :: extremaGo h t

/-- The interior scan of pass 2 (lines 1253-1270): find the first index attaining
the strictly smallest significance among indices `1 .. len-2`, returning
`(min_significance, weakest_link_idx)` with `none` for the sentinel `-1`. -/
def findWeakest (ext : List Action) : Option ℚ × Option Nat :=
  let rec go (i : Nat) (best : Option ℚ × Option Nat) : List Action → Option ℚ × Option Nat
    | p_prev :: p_curr :: p_next :: t =>
      let s := significance p_prev p_curr p_next
      let best' := if sigLt s best.1 then (s, some i) else best
      go (i + 1) best' (p_curr :: p_next :: t)
    | _ => best
  go 1 (none, none) ext

/-- Pass 2 (lines 1252-1275): while more than two extrema remain, pop the weakest
interior extremum as long as its significance is below `position_tolerance`.
The fuel starts at the list length, which bounds the number of pops the Python
`while` loop can perform before `len(extrema) > 2` fails. -/
def pass2Loop (position_tolerance : Int) : Nat → List Action → List Action
  | 0, ext => ext
  | fuel + 1, ext =>
    if 2 < ext.length then
      match findWeakest ext with
      | (minSig, some idx) =>
        if sigLt minSig (some (position_tolerance : ℚ)) then
          pass2Loop position_tolerance fuel (ext.eraseIdx idx)
        else ext
      | (_, none) => ext
    else ext

/-- Pass 3 (lines 1277-1287): greedy spacing by `time_tolerance_ms`; a too-close
successor replaces the last kept keyframe when it is farther from neutral 50. -/
def timeToleranceGo (time_tolerance_ms : Int) (kept : Action) : List Action → List Action
  | [] => [kept]
  | x :: xs =>
    if time_tolerance_ms ≤ x.atMs - kept.atMs then
      kept :: timeToleranceGo time_tolerance_ms x xs
    else if |kept.pos - 50| < |x.pos - 50| then
      timeToleranceGo time_tolerance_ms x xs
    else
      timeToleranceGo time_tolerance_ms kept xs

/-- `DualAxisFunscript.simplify_to_keyframes` for the whole primary list
(`selected_indices=None`, so the prefix and suffix are empty and the segment is
the whole list). -/
def simplifyToKeyframes (l : List Action) (position_tolerance time_tolerance_ms : Int) :
    List Action :=
  if l.length < 3 then l
  else
    let extrema := extremaPass l
    let extrema2 := pass2Loop position_tolerance extrema.length extrema
    if 0 < time_tolerance_ms ∧ 1 < extrema2.length then
      match extrema2 with
      | [] => []
      | h :: t => timeToleranceGo time_tolerance_ms h t
    else extrema2

/-! ### C6: keyframe simplification is not a fixed point, but only removes points -/

theorem extremaGo_sublist (prev : Action) (l : List Action) :
    List.Sublist (extremaGo prev l) l := by
  induction l generalizing prev with
  | nil => simp [extremaGo]
  | cons x t ih =>
    cases t with
    | nil => simp [extremaGo]
    | cons y t' =>
      unfold extremaGo
      split
      · exact List.Sublist.cons₂ x (ih x)
      · exact List.Sublist.cons x (ih x)

theorem pass2Loop_sublist (tol : Int) (fuel : Nat) (ext : List Action) :
    List.Sublist (pass2Loop tol fuel ext) ext := by
  induction fuel generalizing ext with
  | zero => exact List.Sublist.refl _
  | succ n ih =>
    unfold pass2Loop
    split
    · split
      · split
        · exact (ih _).trans (List.eraseIdx_sublist _ _)
        · exact List.Sublist.refl _
      · exact List.Sublist.refl _
    · exact List.Sublist.refl _

theorem timeToleranceGo_sublist (ttol : Int) (kept : Action) (l : List Action) :
    List.Sublist (timeToleranceGo ttol kept l) (kept :: l) := by
  induction l generalizing kept with
  | nil => exact List.Sublist.refl _
  | cons x xs ih =>
    unfold timeToleranceGo
    split
    · exact List.Sublist.cons₂ kept (ih x)
    · split
      · exact (ih x).cons kept
      · exact (ih kept).trans (List.Sublist.cons₂ kept (List.sublist_cons_self x xs))

theorem simplifyToKeyframes_sublist (l : List Action) (ptol ttol : Int) :
    List.Sublist (simplifyToKeyframes l ptol ttol) l := by
  unfold simplifyToKeyframes
  split
  · exact List.Sublist.refl _
  · rename_i hlen
    have h3 : 3 ≤ l.length := by omega
    have hep : List.Sublist (extremaPass l) l := by
      match l, h3 with
      | a :: b :: t, _ =>
        show List.Sublist (a :: extremaGo a (b :: t)) (a :: b :: t)
        exact List.Sublist.cons₂ a (extremaGo_sublist a (b :: t))
    have h2 : List.Sublist (pass2Loop ptol (extremaPass l).length (extremaPass l)) l :=
      (pass2Loop_sublist _ _ _).trans hep
    dsimp only
    split
    · split
      · exact List.nil_sublist l
      · rename_i h t heq
        exact ((timeToleranceGo_sublist ttol h t).trans (heq ▸ h2))
    · exact h2

/-- **C6, counterexample.**  The claim "running `simplify_to_keyframes` a second
time on its own output with the same tolerances removes no further points" is
false: on `[(0,50),(100,60),(200,55),(300,100)]` with the default tolerances
(`position_tolerance=10`, `time_tolerance_ms=50`), the first run keeps
`(200,55)` (its straight-line deviation is 85/3 ≥ 10 after `(100,60)` is
popped), but `(200,55)` is not a local extremum of the first run's output
(50 < 55 < 100), so pass 1 of the second run drops it. -/
theorem simplify_to_keyframes_not_fixed_point :
    simplifyToKeyframes [⟨0,50⟩, ⟨100,60⟩, ⟨200,55⟩, ⟨300,100⟩] 10 50 =
      [⟨0,50⟩, ⟨200,55⟩, ⟨300,100⟩] ∧
    simplifyToKeyframes [⟨0,50⟩, ⟨200,55⟩, ⟨300,100⟩] 10 50 =
      [⟨0,50⟩, ⟨300,100⟩] := by
  constructor <;>
    norm_num [simplifyToKeyframes, extremaPass, extremaGo, pass2Loop, findWeakest,
      findWeakest.go, significance, sigLt, timeToleranceGo, abs_of_nonneg, abs_of_nonpos]

/-- **C6, amended.**  Running `simplify_to_keyframes` a second time on its own
output (same tolerances) may remove further points — the algorithm is not a
fixed point — but a rerun only ever removes points: its output is a subsequence
of the first run's output (no point is added or altered). -/
theorem simplify_to_keyframes_rerun_sublist (l : List Action) (ptol ttol : Int) :
    List.Sublist (simplifyToKeyframes (simplifyToKeyframes l ptol ttol) ptol ttol)
      (simplifyToKeyframes l ptol ttol) :=
  simplifyToKeyframes_sublist _ ptol ttol

/-! ## `KeyframePlugin` (src/funscript/plugins/keyframe_plugin.py)

`KeyframePlugin._find_keyframes` (lines 168-224) is textually the same
three-pass algorithm as `DualAxisFunscript.simplify_to_keyframes` (its
`calc_significance` inlines the same projection formula, the endpoint and
zero-duration cases returning `float('inf')` exactly as there), so it is
embedded by the same `extremaPass` / `pass2Loop` / `timeToleranceGo` functions. -/

/-- Which axis a single-axis plugin application works on. -/
inductive Axis where
  | primary
  | secondary
deriving Repr, DecidableEq

def axisActions (fs : DualAxisFunscript) : Axis → List Action
  | .primary => fs.primary_actions
  | .secondary => fs.secondary_actions

def setAxisActions (fs : DualAxisFunscript) : Axis → List Action → DualAxisFunscript
  | .primary, l => { fs with primary_actions := l }
  | .secondary, l => { fs with secondary_actions := l }

/-- The validated parameters of `KeyframePlugin.transform`. -/
structure KeyframeParams where
  position_tolerance : Int
  time_tolerance_ms : Int
  selected_indices : Option (List Int)

/-- `KeyframePlugin._find_keyframes` (lines 168-224). -/
def pluginFindKeyframes (segment : List Action) (params : KeyframeParams) : List Action :=
  if segment.length < 3 then segment
  else
    let extrema := extremaPass segment
    let extrema2 := pass2Loop params.position_tolerance extrema.length extrema
    if 0 < params.time_tolerance_ms ∧ 1 < extrema2.length then
      match extrema2 with
      | [] => []
      | h :: t => timeToleranceGo params.time_tolerance_ms h t
    else extrema2

/-- The `{'prefix', 'segment', 'suffix', 'start_idx', 'end_idx'}` record of
`_get_segment_to_process`; the dict keys `prefix`/`segment`/`suffix` are the
fields `pre`/`seg`/`suf` here. -/
structure SegmentInfo where
  pre : List Action
  seg : List Action
  suf : List Action
  start_idx : Int
  end_idx : Int

/-- `KeyframePlugin._get_segment_to_process` (lines 129-166). -/
def getSegmentToProcess (actions_list : List Action) (params : KeyframeParams) :
    SegmentInfo :=
  match params.selected_indices with
  | some idxs =>
    if idxs.length ≠ 0 then
      let valid :=
        ((idxs.filter (fun i => 0 ≤ i ∧ i < (actions_list.length : Int))).insertionSort (· ≤ ·))
      if valid.length < 3 then
        { pre := [], seg := [], suf := [], start_idx := -1, end_idx := -1 }
      else
        let s := (valid.headD 0).toNat
        let e := (valid.getLastD 0).toNat
        { pre := actions_list.take s
          seg := (actions_list.drop s).take (e + 1 - s)
          suf := actions_list.drop (e + 1)
          start_idx := s
          end_idx := e }
    else
      { pre := [], seg := actions_list, suf := [],
        start_idx := 0, end_idx := actions_list.length - 1 }
  | none =>
    { pre := [], seg := actions_list, suf := [],
      start_idx := 0, end_idx := actions_list.length - 1 }

/-- The attribute names a `DualAxisFunscript` instance exposes: the methods and
the `actions` property of the class body, plus the instance attributes set in
`__init__` (src/funscript/dual_axis_funscript.py).  `_invalidate_cache` is not
among them, so `funscript._invalidate_cache(axis)` raises `AttributeError`. -/
def dualAxisFunscriptAttributes : List String :=
  ["__init__", "_process_action_for_axis", "add_action", "reset_to_neutral",
   "get_value", "get_latest_value", "clear", "find_next_jump_frame",
   "find_prev_jump_frame", "actions", "_get_default_stats_values",
   "get_actions_statistics", "_get_action_indices_in_time_range",
   "apply_savitzky_golay", "simplify_rdp", "find_peaks_and_valleys",
   "clamp_points_thresholded", "_apply_to_points", "clamp_points_values",
   "invert_points_values", "clear_points", "amplify_points_values",
   "clear_actions_in_time_range", "shift_points_time", "add_actions_batch",
   "scale_points_to_range", "calculate_filter_preview",
   "apply_peak_preserving_resample", "simplify_to_keyframes",
   "apply_speed_limiter", "primary_actions", "secondary_actions",
   "min_interval_ms", "last_timestamp_primary", "last_timestamp_secondary",
   "logger"]

/-- A raised Python exception, as far as this development needs them. -/
inductive PyError where
  | attributeError
deriving Repr, DecidableEq

/-- `KeyframePlugin._apply_keyframe_simplification_to_axis` (lines 83-127),
including the `funscript._invalidate_cache(axis)` call at line 117: the result
is the funscript state after the method finishes or escapes, paired with the
exception, if any, that escaped.  Attribute lookup on the funscript is
modelled against `dualAxisFunscriptAttributes`. -/
def applyKeyframeSimplificationToAxis (fs : DualAxisFunscript) (axis : Axis)
    (params : KeyframeParams) : DualAxisFunscript × Option PyError :=
  let actions_list := axisActions fs axis
  if actions_list.length < 3 then (fs, none)
  else
    let segment_info := getSegmentToProcess actions_list params
    if segment_info.seg.length < 3 then (fs, none)
    else
      let keyframes := pluginFindKeyframes segment_info.seg params
      if keyframes.length = 0 then (fs, none)
      else
        let new_actions_list := segment_info.pre ++ keyframes ++ segment_info.suf
        let fs2 := setAxisActions fs axis new_actions_list
        if "_invalidate_cache" ∈ dualAxisFunscriptAttributes then (fs2, none)
        else (fs2, some .attributeError)

/-! ### C10: the in-place mutation persists, then `_invalidate_cache` raises -/

theorem pass2Loop_ne_nil (tol : Int) (fuel : Nat) (ext : List Action)
    (h : ext ≠ []) : pass2Loop tol fuel ext ≠ [] := by
  induction fuel generalizing ext with
  | zero => exact h
  | succ n ih =>
    unfold pass2Loop
    split
    · rename_i hlen
      split
      · rename_i minSig idx heq
        split
        · apply ih
          have h2 : ext.length - 1 ≤ (ext.eraseIdx idx).length := by
            rcases Nat.lt_or_ge idx ext.length with hc | hc
            · rw [List.length_eraseIdx_of_lt hc]
            · rw [List.eraseIdx_eq_self.mpr hc]
              omega
          have h1 : 1 ≤ (ext.eraseIdx idx).length := by omega
          intro hnil
          rw [hnil] at h1
          simp at h1
        · exact h
      · exact h
    · exact h

theorem timeToleranceGo_ne_nil (ttol : Int) (kept : Action) (l : List Action) :
    timeToleranceGo ttol kept l ≠ [] := by
  induction l generalizing kept with
  | nil => simp [timeToleranceGo]
  | cons x xs ih =>
    unfold timeToleranceGo
    split
    · simp
    · split
      · exact ih x
      · exact ih kept

theorem pluginFindKeyframes_ne_nil (segment : List Action) (params : KeyframeParams)
    (h : segment ≠ []) : pluginFindKeyframes segment params ≠ [] := by
  unfold pluginFindKeyframes
  split
  · exact h
  · rename_i hlen
    have hep : extremaPass segment ≠ [] := by
      cases segment with
      | nil => exact absurd rfl h
      | cons a t =>
        cases t with
        | nil => simp [extremaPass]
        | cons b t' => simp [extremaPass]
    dsimp only
    split
    · rename_i hcond
      split
      · rename_i heq
        exact absurd heq (pass2Loop_ne_nil _ _ _ hep)
      · exact timeToleranceGo_ne_nil _ _ _
    · exact pass2Loop_ne_nil _ _ _ hep

/-- **C10.**  For a funscript whose processed axis holds at least 3 actions and a
processable segment (≥ 3 points), `_apply_keyframe_simplification_to_axis` first
overwrites the axis action list in place with `prefix + keyframes + suffix`, and
the subsequent `funscript._invalidate_cache(axis)` call raises `AttributeError`
(the class defines no such attribute), so the method escapes with the exception
while the mutated list persists — the operation is not atomic on error. -/
theorem keyframe_plugin_mutates_then_raises (fs : DualAxisFunscript) (axis : Axis)
    (params : KeyframeParams)
    (h3 : 3 ≤ (axisActions fs axis).length)
    (hseg : 3 ≤ (getSegmentToProcess (axisActions fs axis) params).seg.length) :
    applyKeyframeSimplificationToAxis fs axis params =
      (setAxisActions fs axis
        ((getSegmentToProcess (axisActions fs axis) params).pre ++
          pluginFindKeyframes (getSegmentToProcess (axisActions fs axis) params).seg params ++
          (getSegmentToProcess (axisActions fs axis) params).suf),
       some .attributeError) := by
  have hmem : "_invalidate_cache" ∉ dualAxisFunscriptAttributes := by decide
  unfold applyKeyframeSimplificationToAxis
  rw [if_neg (by omega), if_neg (by omega)]
  have hne : pluginFindKeyframes (getSegmentToProcess (axisActions fs axis) params).seg params ≠ [] := by
    apply pluginFindKeyframes_ne_nil
    intro hnil
    rw [hnil] at hseg
    simp at hseg
  rw [if_neg (by simpa [List.length_eq_zero] using hne), if_neg hmem]

/-- **C10, witness.**  A concrete run: three points on the primary axis, whole-list
parameters; the plugin overwrites the list and raises `AttributeError`. -/
theorem keyframe_plugin_mutates_then_raises_witness :
    applyKeyframeSimplificationToAxis
        { DualAxisFunscript.init with
            primary_actions := [⟨0,0⟩, ⟨50,100⟩, ⟨100,0⟩] }
        .primary ⟨10, 50, none⟩ =
      (setAxisActions
        { DualAxisFunscript.init with
            primary_actions := [⟨0,0⟩, ⟨50,100⟩, ⟨100,0⟩] }
        .primary
        ((getSegmentToProcess [⟨0,0⟩, ⟨50,100⟩, ⟨100,0⟩] ⟨10, 50, none⟩).pre ++
          pluginFindKeyframes (getSegmentToProcess [⟨0,0⟩, ⟨50,100⟩, ⟨100,0⟩] ⟨10, 50, none⟩).seg
            ⟨10, 50, none⟩ ++
          (getSegmentToProcess [⟨0,0⟩, ⟨50,100⟩, ⟨100,0⟩] ⟨10, 50, none⟩).suf),
       some .attributeError) :=
  keyframe_plugin_mutates_then_raises
    { DualAxisFunscript.init with primary_actions := [⟨0,0⟩, ⟨50,100⟩, ⟨100,0⟩] }
    .primary ⟨10, 50, none⟩ (by decide) (by decide)

/-! ## `simplify_rdp` (src/funscript/dual_axis_funscript.py lines 368-463)

The recursive `rdp_numpy` works on float pairs `[at, pos]`.  We model the float
values by exact rationals.  The float comparison `max_distance > epsilon`, with
`d_i = |cross((last-first),(p_i-first))| / ‖last-first‖`, is modelled without a
square root by the equivalent squared comparison `cross_i² > ε²·‖last-first‖²`
(valid for `ε ≥ 0`); `np.argmax(d)` is the first index of the largest `d_i`,
which is the first index of the largest `cross_i²` whenever `‖last-first‖ > 0`.
When `‖last-first‖ = 0`, NumPy produces `0/0 = nan`, every `nan > ε` comparison
is false and the two-endpoint branch is taken; the squared model takes the same
branch (`0 > ε²·0` is false).  Python's recursion terminates for `ε ≥ 0`
because the maximal interior distance strictly exceeds `ε ≥ 0` only at an
interior index; the structural `fuel` argument (seeded with the list length,
an upper bound on the recursion depth) makes the same recursion total in Lean,
and the fuel-exhausted branch coincides with the two-endpoint base case. -/

/-- A float point `[at, pos]` of the `points` array. -/
structure QPoint where
  t : ℚ
  p : ℚ
deriving Repr, DecidableEq

/-- `np.cross(points[-1] - points[0], p - points[0])` for 2-d points. -/
def crossAt (first last p : QPoint) : ℚ :=
  (last.t - first.t) * (p.p - first.p) - (last.p - first.p) * (p.t - first.t)

/-- First index of the maximum of a nonempty rational list (`np.argmax`). -/
def argmaxQ (l : List ℚ) : Nat :=
  let rec go (i : Nat) (bi : Nat) (bv : ℚ) : List ℚ → Nat
    | [] => bi
    | x :: xs => if bv < x then go (i + 1) i x xs else go (i + 1) bi bv xs
  match l with
  | [] => 0
  | x :: xs => go 1 0 x xs

/-- The inner recursive `rdp_numpy(points, epsilon)` (lines 414-426). -/
def rdpNumpy (eps : ℚ) : Nat → List QPoint → List QPoint
  | 0, pts =>
    match pts with
    | [] => []
    | p :: rest => [p, rest.getLastD p]
  | fuel + 1, pts =>
    if pts.length < 3 then pts
    else
      match pts with
      | [] => []
      | first :: rest =>
        let last := rest.getLastD first
        let crossSq := (pts.dropLast).map (fun p => (crossAt first last p) ^ 2)
        let normSq := (last.t - first.t) ^ 2 + (last.p - first.p) ^ 2
        let max_index := argmaxQ crossSq
        let max_distance_sq := crossSq.getD max_index 0
        if eps ^ 2 * normSq < max_distance_sq then
          let left := rdpNumpy eps fuel (pts.take (max_index + 1))
          let right := rdpNumpy eps fuel (pts.drop max_index)
          left.dropLast ++ right
        else
          [first, last]

/-- How the segment to simplify is selected (lines 378-405): explicit indices
take precedence over a time range; otherwise the whole list. -/
inductive RdpSelection where
  | indices (idxs : List Int)
  | timeRange (start_time_ms end_time_ms : Int)
  | whole

/-- `_get_action_indices_in_time_range` (lines 302-314). -/
def actionIndicesInTimeRange (actions_list : List Action)
    (start_time_ms end_time_ms : Int) : Option (Nat × Nat) :=
  if actions_list.length = 0 then none
  else
    let s_idx := bisectLeft (actions_list.map (·.atMs)) start_time_ms
    let e_idx := bisectRight (actions_list.map (·.atMs)) end_time_ms
    if e_idx ≤ s_idx then none else some (s_idx, e_idx - 1)

/-- The `prefix_actions / segment_to_simplify / suffix_actions` decomposition of
`simplify_rdp` (lines 378-409), `none` when the method returns early. -/
def rdpDecompose (l : List Action) (sel : RdpSelection) :
    Option (List Action × List Action × List Action) :=
  match sel with
  | .indices idxs =>
    if idxs.length ≠ 0 then
      let valid := ((idxs.filter (fun i => 0 ≤ i ∧ i < (l.length : Int))).insertionSort (· ≤ ·))
      if valid.length < 2 then none
      else
        let s := (valid.headD 0).toNat
        let e := (valid.getLastD 0).toNat
        some (l.take s, (l.drop s).take (e + 1 - s), l.drop (e + 1))
    else
      -- `selected_indices` empty falls through to the time-range / whole branches;
      -- with no time range given, the whole list is the segment.
      some ([], l, [])
  | .timeRange s_ms e_ms =>
    match actionIndicesInTimeRange l s_ms e_ms with
    | none => none
    | some (s, e) =>
      if e + 1 - s < 2 then none
      else some (l.take s, (l.drop s).take (e + 1 - s), l.drop (e + 1))
  | .whole => some ([], l, [])

/-- One step of the reconstruction loop (lines 433-442): index 0 and index
`n-1` take the exact input-segment endpoints, interior simplified points are
rounded back to ints. -/
def rdpReconstructPoint (segment : List Action) (n : Nat) (pi : Nat × QPoint) : Action :=
  if pi.1 = 0 then segment.headD ⟨0, 0⟩
  else if pi.1 = n - 1 then segment.getLastD ⟨0, 0⟩
  else ⟨pyInt pi.2.t, clampPos (pyRound pi.2.p)⟩

/-- The reconstruction loop (lines 431-446): endpoints are taken verbatim from
the input segment, interior simplified points are rounded back to ints, and a
two-point result that collapsed to identical start/end is trimmed. -/
def rdpReconstruct (segment : List Action) (simplified : List QPoint) : List Action :=
  let raw := simplified.enum.map (rdpReconstructPoint segment simplified.length)
  if 2 ≤ raw.length ∧ raw.headD ⟨0, 0⟩ = raw.getLastD ⟨0, 0⟩ then raw.dropLast else raw

/-- `DualAxisFunscript.simplify_rdp` (lines 368-463) on one axis list, returning
the new list (the early-return paths leave the list unchanged). -/
def simplifyRdp (l : List Action) (eps : ℚ) (sel : RdpSelection) : List Action :=
  if l.length < 2 then l
  else
    match rdpDecompose l sel with
    | none => l
    | some (pre, segment, suf) =>
      if segment.length < 2 then l
      else
        let points := segment.map (fun a => QPoint.mk (a.atMs : ℚ) (a.pos : ℚ))
        let simplified := rdpNumpy eps points.length points
        pre ++ rdpReconstruct segment simplified ++ suf

/-! ### C7: RDP endpoint preservation -/

theorem argmaxQ_go_lt (l : List ℚ) : ∀ (i bi : Nat) (bv : ℚ), bi < i →
    argmaxQ.go i bi bv l < i + l.length := by
  induction l with
  | nil => intro i bi bv h; simpa [argmaxQ.go] using Nat.lt_of_lt_of_le h (Nat.le_add_right i 0)
  | cons x xs ih =>
    intro i bi bv h
    unfold argmaxQ.go
    split
    · have := ih (i + 1) i x (Nat.lt_succ_self i)
      simpa [Nat.add_assoc, Nat.add_comm 1 xs.length] using this
    · have := ih (i + 1) bi bv (Nat.lt_succ_of_lt h)
      simpa [Nat.add_assoc, Nat.add_comm 1 xs.length] using this

theorem argmaxQ_lt (l : List ℚ) (h : l ≠ []) : argmaxQ l < l.length := by
  cases l with
  | nil => exact absurd rfl h
  | cons x xs =>
    have := argmaxQ_go_lt xs 1 0 x Nat.one_pos
    simpa [argmaxQ, Nat.add_comm 1 xs.length] using this

theorem rdpNumpy_length (eps : ℚ) (fuel : Nat) (pts : List QPoint)
    (h : 2 ≤ pts.length) : 2 ≤ (rdpNumpy eps fuel pts).length := by
  induction fuel generalizing pts with
  | zero =>
    cases pts with
    | nil => simp at h
    | cons p rest => simp [rdpNumpy]
  | succ n ih =>
    cases pts with
    | nil => simp at h
    | cons first rest =>
      unfold rdpNumpy
      split
      · exact h
      · rename_i hlen
        dsimp only
        have hlen3 : 3 ≤ rest.length + 1 := by
          simp only [not_lt, List.length_cons] at hlen
          exact hlen
        split
        · -- recursive branch: the right half keeps at least two points
          have hne : ((first :: rest).dropLast).map
              (fun p => (crossAt first (rest.getLastD first) p) ^ 2) ≠ [] := by
            apply List.ne_nil_of_length_pos
            rw [List.length_map, List.length_dropLast, List.length_cons]
            omega
          have hmax := argmaxQ_lt _ hne
          rw [List.length_map, List.length_dropLast, List.length_cons] at hmax
          have hdrop : 2 ≤ ((first :: rest).drop
              (argmaxQ (((first :: rest).dropLast).map
                (fun p => (crossAt first (rest.getLastD first) p) ^ 2)))).length := by
            rw [List.length_drop, List.length_cons]
            omega
          have hr := ih _ hdrop
          simp only [List.length_append]
          omega
        · simp

/-- Each element of `rdpNumpy`'s `d`-array is zero when the segment endpoints
coincide, so the split condition is false and the two-endpoint branch is taken
(or the short-list branch returns the two points unchanged). -/
theorem rdpNumpy_degenerate_length (eps : ℚ) (first : QPoint) (rest : List QPoint)
    (hlast : rest.getLastD first = first) (hrest : rest ≠ []) :
    (rdpNumpy eps (first :: rest).length (first :: rest)).length = 2 := by
  have h1 : 1 ≤ rest.length := by
    cases rest with
    | nil => exact absurd rfl hrest
    | cons a t => simp
  rw [List.length_cons]
  unfold rdpNumpy
  split
  · rename_i hlt
    simp only [List.length_cons] at hlt ⊢
    omega
  · dsimp only
    rw [hlast]
    have hc : (fun p => (crossAt first first p) ^ 2) = fun _ : QPoint => (0 : ℚ) := by
      funext p
      simp [crossAt]
    rw [hc, List.map_const']
    have hz : ∀ k : Nat, (List.replicate ((first :: rest).dropLast).length (0:ℚ)).getD k 0 = 0 := by
      intro k
      rcases Nat.lt_or_ge k ((first :: rest).dropLast).length with hk | hk
      · rw [List.getD_eq_getElem?_getD]
        simp only [List.length_dropLast, List.length_cons, Nat.add_sub_cancel] at hk
        simp [List.getElem?_replicate, hk]
      · rw [List.getD_eq_default]
        simpa using hk
    rw [if_neg]
    · simp
    · rw [hz]
      simp

theorem getLastD_map_cast (l : List Action) (d : Action) :
    (l.map (fun a => QPoint.mk (a.atMs : ℚ) (a.pos : ℚ))).getLastD
        (QPoint.mk (d.atMs : ℚ) (d.pos : ℚ)) =
      QPoint.mk ((l.getLastD d).atMs : ℚ) ((l.getLastD d).pos : ℚ) := by
  induction l generalizing d with
  | nil => simp
  | cons a t ih =>
    rw [List.map_cons, List.getLastD_cons, List.getLastD_cons]
    exact ih a

theorem getLastD_ne_nil (l : List α) (h : l ≠ []) (d d' : α) :
    l.getLastD d = l.getLastD d' := by
  cases l with
  | nil => exact absurd rfl h
  | cons a t => rw [List.getLastD_cons, List.getLastD_cons]

/-- The last element of the mapped enumeration carries the last index `n - 1`,
so the reconstruction maps it to the exact input-segment end point. -/
theorem rdpReconstruct_raw_getLast (seg : List Action) (n : Nat) (d : Action) :
    ∀ (qs : List QPoint) (i : Nat), 1 ≤ i → i + qs.length = n → qs ≠ [] →
      ((List.enumFrom i qs).map (rdpReconstructPoint seg n)).getLastD d =
        seg.getLastD ⟨0, 0⟩ := by
  intro qs
  induction qs with
  | nil => intro i _ _ h; exact absurd rfl h
  | cons x t ih =>
    intro i hi hn _
    cases t with
    | nil =>
      have h0 : ((List.enumFrom i [x]).map (rdpReconstructPoint seg n)).getLastD d =
          rdpReconstructPoint seg n (i, x) := rfl
      rw [h0]
      unfold rdpReconstructPoint
      have hi0 : (i, x).1 ≠ 0 := by simp; omega
      have hin : (i, x).1 = n - 1 := by
        simp only [List.length_cons, List.length_nil] at hn
        simp
        omega
      rw [if_neg hi0, if_pos hin]
    | cons y t2 =>
      have hstep : (List.enumFrom i (x :: y :: t2)).map (rdpReconstructPoint seg n) =
          rdpReconstructPoint seg n (i, x) ::
            (List.enumFrom (i + 1) (y :: t2)).map (rdpReconstructPoint seg n) := rfl
      rw [hstep, List.getLastD_cons]
      refine ih (i + 1) (by omega) ?_ (by simp)
      simp only [List.length_cons] at hn ⊢
      omega

/-- Endpoint behaviour of the reconstruction, given that a head-equals-last
segment forces a two-point simplification result. -/
theorem rdpReconstruct_endpoints (seg : List Action) (simplified : List QPoint)
    (hseg : 2 ≤ seg.length) (hs : 2 ≤ simplified.length)
    (hdeg : seg.headD ⟨0, 0⟩ = seg.getLastD ⟨0, 0⟩ → simplified.length = 2) :
    rdpReconstruct seg simplified ≠ [] ∧
    (rdpReconstruct seg simplified).headD ⟨0, 0⟩ = seg.headD ⟨0, 0⟩ ∧
    (rdpReconstruct seg simplified).getLastD ⟨0, 0⟩ = seg.getLastD ⟨0, 0⟩ := by
  match simplified, hs, hdeg with
  | q :: qs, hs2, hdeg2 =>
    have hqs : qs ≠ [] := by
      intro h
      subst h
      simp at hs2
    have hraw : (q :: qs).enum.map (rdpReconstructPoint seg (q :: qs).length) =
        rdpReconstructPoint seg (q :: qs).length (0, q) ::
          (List.enumFrom 1 qs).map (rdpReconstructPoint seg (q :: qs).length) := rfl
    have hhead : rdpReconstructPoint seg (q :: qs).length (0, q) = seg.headD ⟨0, 0⟩ := by
      unfold rdpReconstructPoint
      rw [if_pos rfl]
    have hlast : ∀ d, ((q :: qs).enum.map
        (rdpReconstructPoint seg (q :: qs).length)).getLastD d = seg.getLastD ⟨0, 0⟩ := by
      intro d
      rw [hraw, List.getLastD_cons]
      refine rdpReconstruct_raw_getLast seg (q :: qs).length _ qs 1 (by omega) ?_ hqs
      rw [List.length_cons, Nat.add_comm]
    unfold rdpReconstruct
    dsimp only
    split
    · -- the duplicate-endpoint trim fired
      rename_i hcond
      obtain ⟨hlen2, heq⟩ := hcond
      rw [hraw, List.headD_cons, hhead, List.getLastD_cons,
        rdpReconstruct_raw_getLast seg (q :: qs).length _ qs 1 (by omega)
          (by rw [List.length_cons, Nat.add_comm]) hqs] at heq
      -- so the segment endpoints coincide and the result has exactly two points
      have hn2 : (q :: qs).length = 2 := hdeg2 heq
      obtain ⟨x, hx⟩ : ∃ x, qs = [x] := by
        cases qs with
        | nil => simp at hn2
        | cons y t =>
          cases t with
          | nil => exact ⟨y, rfl⟩
          | cons z t2 => simp at hn2
      subst hx
      have hform : (q :: [x]).enum.map (rdpReconstructPoint seg (q :: [x]).length) =
          [rdpReconstructPoint seg 2 (0, q), rdpReconstructPoint seg 2 (1, x)] := rfl
      rw [hform]
      simp only [List.dropLast_cons₂, List.dropLast_single, List.headD_cons]
      have hsingle : ([rdpReconstructPoint seg 2 (0, q)]).getLastD ⟨0, 0⟩ =
          rdpReconstructPoint seg 2 (0, q) := rfl
      rw [hsingle]
      have hh2 : rdpReconstructPoint seg 2 (0, q) = seg.headD ⟨0, 0⟩ := by
        unfold rdpReconstructPoint
        rw [if_pos rfl]
      refine ⟨by simp, hh2, ?_⟩
      rw [hh2, heq]
    · refine ⟨?_, ?_, ?_⟩
      · rw [hraw]
        simp
      · rw [hraw, List.headD_cons]
        exact hhead
      · exact hlast _

set_option maxHeartbeats 1600000 in
/-- **C7.** RDP endpoint preservation: for every axis list, selection (whole
list, time range or explicit indices) whose selected segment has at least two
points, and every `ε ≥ 0`, `simplify_rdp` rebuilds the list as
`prefix ++ simplified-segment ++ suffix` with the prefix and suffix untouched,
and the simplified segment's first and last actions equal the input segment's
first and last actions exactly (taken verbatim, not recomputed; when the
degenerate duplicate-endpoint trim fires, the single remaining point still
equals both endpoints, which coincide in that case). -/
theorem simplify_rdp_endpoint_preservation (l : List Action) (eps : ℚ)
    (heps : 0 ≤ eps) (sel : RdpSelection) (pre seg suf : List Action)
    (hdec : rdpDecompose l sel = some (pre, seg, suf)) (hl : 2 ≤ l.length)
    (hseg : 2 ≤ seg.length) :
    ∃ newseg : List Action,
      simplifyRdp l eps sel = pre ++ newseg ++ suf ∧
      newseg ≠ [] ∧
      newseg.headD ⟨0, 0⟩ = seg.headD ⟨0, 0⟩ ∧
      newseg.getLastD ⟨0, 0⟩ = seg.getLastD ⟨0, 0⟩ := by
  have hpoints : (seg.map (fun a => QPoint.mk (a.atMs : ℚ) (a.pos : ℚ))).length =
      seg.length := List.length_map _ _
  have hs : 2 ≤ (rdpNumpy eps
      (seg.map (fun a => QPoint.mk (a.atMs : ℚ) (a.pos : ℚ))).length
      (seg.map (fun a => QPoint.mk (a.atMs : ℚ) (a.pos : ℚ)))).length :=
    rdpNumpy_length _ _ _ (by rw [hpoints]; exact hseg)
  have hdeg : seg.headD ⟨0, 0⟩ = seg.getLastD ⟨0, 0⟩ →
      (rdpNumpy eps
        (seg.map (fun a => QPoint.mk (a.atMs : ℚ) (a.pos : ℚ))).length
        (seg.map (fun a => QPoint.mk (a.atMs : ℚ) (a.pos : ℚ)))).length = 2 := by
    intro hh
    match seg, hseg, hh with
    | a :: t, hseg2, hh2 =>
      have ht : t ≠ [] := by
        intro h
        subst h
        simp at hseg2
      have htm : t.map (fun a => QPoint.mk (a.atMs : ℚ) (a.pos : ℚ)) ≠ [] := by
        simpa using ht
      have hcast : (t.map (fun a => QPoint.mk (a.atMs : ℚ) (a.pos : ℚ))).getLastD
          (QPoint.mk (a.atMs : ℚ) (a.pos : ℚ)) = QPoint.mk (a.atMs : ℚ) (a.pos : ℚ) := by
        rw [getLastD_map_cast]
        have : t.getLastD a = a := by
          rw [List.headD_cons] at hh2
          have h2 : (a :: t).getLastD ⟨0, 0⟩ = t.getLastD a := List.getLastD_cons _ _ _
          rw [h2] at hh2
          exact hh2.symm
        rw [this]
      have := rdpNumpy_degenerate_length eps (QPoint.mk (a.atMs : ℚ) (a.pos : ℚ))
        (t.map (fun a => QPoint.mk (a.atMs : ℚ) (a.pos : ℚ))) hcast htm
      simpa using this
  have hrec := rdpReconstruct_endpoints seg _ hseg hs hdeg
  refine ⟨rdpReconstruct seg (rdpNumpy eps
      (seg.map (fun a => QPoint.mk (a.atMs : ℚ) (a.pos : ℚ))).length
      (seg.map (fun a => QPoint.mk (a.atMs : ℚ) (a.pos : ℚ)))), ?_, hrec.1, hrec.2.1, hrec.2.2⟩
  unfold simplifyRdp
  rw [if_neg (by omega), hdec]
  dsimp only
  rw [if_neg (by omega)]

/-- **C7, witness.**  A concrete whole-list run with `ε = 0` on three points:
the output is rebuilt around verbatim endpoints. -/
theorem simplify_rdp_endpoint_preservation_witness :
    ∃ newseg : List Action,
      simplifyRdp [⟨0, 0⟩, ⟨50, 80⟩, ⟨100, 0⟩] 0 .whole = [] ++ newseg ++ [] ∧
      newseg ≠ [] ∧
      newseg.headD ⟨0, 0⟩ = ([⟨0, 0⟩, ⟨50, 80⟩, ⟨100, 0⟩] : List Action).headD ⟨0, 0⟩ ∧
      newseg.getLastD ⟨0, 0⟩ = ([⟨0, 0⟩, ⟨50, 80⟩, ⟨100, 0⟩] : List Action).getLastD ⟨0, 0⟩ :=
  simplify_rdp_endpoint_preservation [⟨0, 0⟩, ⟨50, 80⟩, ⟨100, 0⟩] 0 le_rfl .whole
    [] [⟨0, 0⟩, ⟨50, 80⟩, ⟨100, 0⟩] [] rfl (by simp) (by simp)

/-! ## `apply_speed_limiter` (src/funscript/dual_axis_funscript.py lines 1291-1453)

Three sequential passes over a deep copy of the axis list: (1) remove actions
whose interval to the previously kept action (scanning back-to-front) is below
`min_interval`, then restore ascending order with Python's stable `sorted`;
(2) replace near-flat runs with small vibrations; (3) cap point-to-point speed
left-to-right.  The copy replaces the original only if at least one pass
counted a change.  `speed_threshold` is a float, modelled by `ℚ`; every other
quantity is integral. -/

/-- Direction strings `'up' / 'down' / ''` used by pass 2. -/
inductive Dir where
  | up
  | down
  | flat
deriving Repr, DecidableEq

/-- The `last_vibe` state string: `'' / 'up' / 'down'`. -/
inductive Vibe where
  | blank
  | up
  | down
deriving Repr, DecidableEq

/-- The kept-actions scan of pass 1 (lines 1310-1322), on the reversed list
after its head: keep an action when `abs(at - last_action_at) ≥ min_interval`,
updating the anchor only on keeps.  Returns the kept tail and the number of
removed points. -/
def intervalKeepGo (min_interval : Int) : Int → List Action → List Action × Nat
  | _, [] => ([], 0)
  | last_action_at, x :: xs =>
    if |x.atMs - last_action_at| < min_interval then
      let r := intervalKeepGo min_interval last_action_at xs
      (r.1, r.2 + 1)
    else
      let r := intervalKeepGo min_interval x.atMs xs
      (x :: r.1, r.2)

/-- Python's stable `sorted(..., key=lambda x: x['at'])` (line 1325). -/
def sortByAt (l : List Action) : List Action :=
  l.insertionSort (fun a b => a.atMs ≤ b.atMs)

/-- Pass 1 (lines 1307-1329). -/
def speedLimiterPass1 (min_interval : Int) (actions : List Action) :
    List Action × Nat :=
  if 1 < actions.length then
    match actions.reverse with
    | [] => (actions, 0)   -- unreachable: the list has more than one element
    | r0 :: rrest =>
      let r := intervalKeepGo min_interval r0.atMs rrest
      (sortByAt (r0 :: r.1), r.2)
  else (actions, 0)

/-- The rolling state of pass 2: `last_action_at`, `last_vibe` and
`unmod_last_action_height` (lines 1334-1337). -/
structure VibeState where
  last_action_at : Int
  last_vibe : Vibe
  unmod_last_action_height : Int

/-- The direction `'up' if a < b` comparison pattern of pass 2. -/
def dirOf (a b : Int) : Dir :=
  if a < b then Dir.up else if b < a then Dir.down else Dir.flat

/-- The guard of the vibe insertion (lines 1358-1378): near-flat travel on both
sides, a short interval, not already oscillating, and `min_interval ≤ 134`.
With no lookahead, `next_travel` is `float('inf')`, failing `< 16`. -/
def vibeCond (min_interval : Int) (st : VibeState) (current : Action)
    (next? : Option Action) : Prop :=
  |current.pos - st.unmod_last_action_height| < 16 ∧
  (match next? with
   | some np => |np.pos - current.pos| < 16
   | none => False) ∧
  current.atMs - st.last_action_at < 135 ∧
  ¬ (match next? with
     | some np =>
       ¬ (dirOf st.unmod_last_action_height current.pos =
            dirOf current.pos np.pos) ∧
       (8 < |current.pos - st.unmod_last_action_height| ∨ 8 < |current.pos - np.pos|)
     | none => False) ∧
  min_interval ≤ 134

instance (mi : Int) (st : VibeState) (c : Action) (n : Option Action) :
    Decidable (vibeCond mi st c n) := by
  unfold vibeCond
  cases n <;> dsimp only <;> infer_instance

/-- The vibe application (lines 1379-1399): pick a starting direction when the
carried `last_vibe` is `''`, then move the position by `vibe_amount` and flip
the direction.  Returns the new (unclamped) position, the new `last_vibe`, and
whether a modification was counted. -/
def vibeApply (vibe_amount : Int) (st : VibeState) (last current : Action) :
    Int × Vibe :=
  let last_direction := dirOf last.pos current.pos
  let start_vibe :=
    if st.last_vibe = Vibe.blank then
      if last_direction = Dir.up ∨ current.pos < 6 then Vibe.down
      else if last_direction = Dir.down ∨ 94 < current.pos then Vibe.up
      else if current.pos < 50 then Vibe.down
      else Vibe.up
    else st.last_vibe
  match start_vibe with
  | Vibe.down => (current.pos + vibe_amount, Vibe.up)
  | Vibe.up => (current.pos - vibe_amount, Vibe.down)
  | Vibe.blank => (current.pos, Vibe.blank)   -- unreachable: `start_vibe` is up or down

/-- The body of pass 2 (lines 1340-1406).  `last` is the (already rewritten)
predecessor `actions[i-1]`; the lookahead `next_pos = actions[i+1]` reads the
not-yet-rewritten tail.  Every visited action is finally clamped to `[0,100]`
(line 1406).  Returns the rewritten tail and the modification count. -/
def vibeGo (min_interval vibe_amount : Int) :
    VibeState → Action → List Action → List Action × Nat
  | _, _, [] => ([], 0)
  | st, last, current :: rest =>
    if vibeCond min_interval st current rest.head? then
      let applied := vibeApply vibe_amount st last current
      let current2 : Action := { current with pos := clampPos applied.1 }
      let st2 : VibeState :=
        { last_action_at := current.atMs
          last_vibe := applied.2
          unmod_last_action_height := current.pos }
      let r := vibeGo min_interval vibe_amount st2 current2 rest
      (current2 :: r.1, r.2 + 1)
    else
      let current2 : Action := { current with pos := clampPos current.pos }
      let st2 : VibeState :=
        { last_action_at := current.atMs
          last_vibe := Vibe.blank
          unmod_last_action_height := current.pos }
      let r := vibeGo min_interval vibe_amount st2 current2 rest
      (current2 :: r.1, r.2)

/-- Pass 2 (lines 1331-1409). -/
def speedLimiterPass2 (min_interval vibe_amount : Int) (actions : List Action) :
    List Action × Nat :=
  if 2 < actions.length then
    match actions with
    | [] => ([], 0)   -- unreachable
    | a0 :: rest =>
      let r := vibeGo min_interval vibe_amount
        { last_action_at := a0.atMs, last_vibe := Vibe.blank,
          unmod_last_action_height := 0 } a0 rest
      (a0 :: r.1, r.2)
  else (actions, 0)

/-- The left-to-right capping loop of pass 3 (lines 1414-1434): `prev` is the
already-capped predecessor.  Returns the rewritten tail and the cap count. -/
def capGo (speed_threshold : ℚ) : Action → List Action → List Action × Nat
  | _, [] => ([], 0)
  | prev, c :: rest =>
    let time_diff_s : ℚ := ((c.atMs - prev.atMs : Int) : ℚ) / 1000
    if time_diff_s = 0 then
      -- `continue`: the next pair is `(actions[i], actions[i+1])`
      let r := capGo speed_threshold c rest
      (c :: r.1, r.2)
    else
      let pos_diff : ℚ := |((c.pos - prev.pos : Int) : ℚ)|
      let speed := pos_diff / time_diff_s
      if speed_threshold < speed then
        let new_pos_diff := speed_threshold * time_diff_s
        let raw : Int :=
          if prev.pos < c.pos then pyInt ((prev.pos : ℚ) + new_pos_diff)
          else pyInt ((prev.pos : ℚ) - new_pos_diff)
        let c2 : Action := { c with pos := clampPos raw }
        let r := capGo speed_threshold c2 rest
        (c2 :: r.1, r.2 + 1)
      else
        let r := capGo speed_threshold c rest
        (c :: r.1, r.2)

/-- Pass 3 (lines 1411-1437). -/
def speedLimiterPass3 (speed_threshold : ℚ) (actions : List Action) :
    List Action × Nat :=
  if 1 < actions.length then
    match actions with
    | [] => ([], 0)   -- unreachable
    | a0 :: rest =>
      let r := capGo speed_threshold a0 rest
      (a0 :: r.1, r.2)
  else (actions, 0)

/-- `DualAxisFunscript.apply_speed_limiter` (lines 1291-1453) on one axis list:
the three passes run on a copy, which replaces the original only when at least
one pass counted a change (lines 1440-1453). -/
def applySpeedLimiter (l : List Action) (min_interval vibe_amount : Int)
    (speed_threshold : ℚ) : List Action :=
  if l.length < 2 then l
  else
    let r1 := speedLimiterPass1 min_interval l
    let r2 := speedLimiterPass2 min_interval vibe_amount r1.1
    let r3 := speedLimiterPass3 speed_threshold r2.1
    if 0 < r1.2 ∨ 0 < r2.2 ∨ 0 < r3.2 then r3.1 else l

/-! ### C5: speed-limiter pass 1 lemmas -/

theorem chain_desc_forall {x : Action} {ds : List Action}
    (h : List.Chain' (fun a b => b.atMs < a.atMs) (x :: ds)) :
    ∀ b ∈ ds, b.atMs < x.atMs := by
  induction ds generalizing x with
  | nil => simp
  | cons y t ih =>
    rw [List.chain'_cons] at h
    intro b hb
    rcases List.mem_cons.mp hb with hb | hb
    · rw [hb]
      exact h.1
    · exact lt_trans (ih h.2 b hb) h.1

theorem intervalKeepGo_sublist (m : Int) (anchor : Int) (xs : List Action) :
    List.Sublist (intervalKeepGo m anchor xs).1 xs := by
  induction xs generalizing anchor with
  | nil => simp [intervalKeepGo]
  | cons x t ih =>
    unfold intervalKeepGo
    dsimp only
    split
    · exact (ih anchor).cons x
    · exact List.Sublist.cons₂ x (ih x.atMs)

theorem intervalKeepGo_zero (m : Int) (anchor : Int) (xs : List Action)
    (h : (intervalKeepGo m anchor xs).2 = 0) : (intervalKeepGo m anchor xs).1 = xs := by
  induction xs generalizing anchor with
  | nil => simp [intervalKeepGo]
  | cons x t ih =>
    unfold intervalKeepGo at h ⊢
    dsimp only at h ⊢
    split
    · rename_i hc
      rw [if_pos hc] at h
      simp at h
    · rename_i hc
      rw [if_neg hc] at h
      simp only at h
      rw [ih x.atMs h]

theorem intervalKeepGo_chain (m : Int) (xs : List Action) :
    ∀ anchor : Action,
      List.Chain' (fun a b => b.atMs < a.atMs) (anchor :: xs) →
      List.Chain' (fun a b => m ≤ a.atMs - b.atMs)
        (anchor :: (intervalKeepGo m anchor.atMs xs).1) := by
  induction xs with
  | nil =>
    intro anchor _
    simp [intervalKeepGo]
  | cons x t ih =>
    intro anchor h
    rw [List.chain'_cons] at h
    obtain ⟨hax, hxt⟩ := h
    unfold intervalKeepGo
    dsimp only
    have habs : |x.atMs - anchor.atMs| = anchor.atMs - x.atMs := by
      rw [abs_sub_comm]
      exact abs_of_nonneg (by omega)
    rw [habs]
    split
    · -- removed: same anchor continues against the rest
      apply ih anchor
      rw [List.chain'_cons']
      refine ⟨?_, (List.chain'_cons'.mp hxt).2⟩
      intro y hy
      have := (List.chain'_cons'.mp hxt).1 y hy
      omega
    · rename_i hc
      rw [List.chain'_cons]
      exact ⟨by omega, ih x hxt⟩

theorem orderedInsert_of_forall_lt (x : Action) (l : List Action)
    (h : ∀ b ∈ l, b.atMs < x.atMs) :
    l.orderedInsert (fun a b => a.atMs ≤ b.atMs) x = l ++ [x] := by
  induction l with
  | nil => rfl
  | cons b bs ih =>
    rw [List.orderedInsert]
    rw [if_neg]
    · rw [ih (fun c hc => h c (List.mem_cons_of_mem b hc))]
      rfl
    · have := h b (List.mem_cons_self b bs)
      omega

theorem sortByAt_of_desc (l : List Action)
    (h : List.Chain' (fun a b => b.atMs < a.atMs) l) :
    sortByAt l = l.reverse := by
  induction l with
  | nil => rfl
  | cons x ds ih =>
    have htail : List.Chain' (fun a b => b.atMs < a.atMs) ds :=
      (List.chain'_cons'.mp h).2
    unfold sortByAt at ih ⊢
    rw [List.insertionSort, ih htail]
    rw [orderedInsert_of_forall_lt]
    · simp
    · intro b hb
      exact chain_desc_forall h b (List.mem_reverse.mp hb)

theorem speedLimiterPass1_spec (m : Int) (hm : 1 ≤ m) (l : List Action)
    (hs : SortedStrict l) :
    Spaced m (speedLimiterPass1 m l).1 ∧
    (∀ x ∈ (speedLimiterPass1 m l).1, x ∈ l) ∧
    ((speedLimiterPass1 m l).2 = 0 → (speedLimiterPass1 m l).1 = l) := by
  unfold speedLimiterPass1
  split
  · rename_i hlen
    have hdesc : List.Chain' (fun a b => b.atMs < a.atMs) l.reverse := by
      rw [List.chain'_reverse]
      exact List.Chain'.imp (fun a b h => h) hs
    split
    · rename_i heq
      have hl0 := congrArg List.length heq
      simp at hl0
      refine ⟨?_, by simp, fun _ => rfl⟩
      rw [hl0]
      simp [Spaced]
    · rename_i r0 rrest heq
      have hdesc2 : List.Chain' (fun a b => b.atMs < a.atMs) (r0 :: rrest) :=
        heq ▸ hdesc
      dsimp only
      have hchain := intervalKeepGo_chain m rrest r0 hdesc2
      have hdesc3 : List.Chain' (fun a b => b.atMs < a.atMs)
          (r0 :: (intervalKeepGo m r0.atMs rrest).1) :=
        List.Chain'.imp (fun a b h => by omega) hchain
      refine ⟨?_, ?_, ?_⟩
      · rw [sortByAt_of_desc _ hdesc3]
        unfold Spaced
        rw [List.chain'_reverse]
        exact List.Chain'.imp (fun a b h => h) hchain
      · intro x hx
        have hperm := (r0 :: (intervalKeepGo m r0.atMs rrest).1).perm_insertionSort
          (fun a b => a.atMs ≤ b.atMs)
        have hx2 : x ∈ r0 :: (intervalKeepGo m r0.atMs rrest).1 :=
          hperm.mem_iff.mp hx
        have hmemrev : x ∈ l.reverse := by
          rw [heq]
          rcases List.mem_cons.mp hx2 with hx3 | hx3
          · rw [hx3]
            exact List.mem_cons_self _ _
          · exact List.mem_cons_of_mem _
              ((intervalKeepGo_sublist m r0.atMs rrest).mem hx3)
        exact List.mem_reverse.mp hmemrev
      · intro hzero
        rw [intervalKeepGo_zero m r0.atMs rrest hzero, ← heq,
          sortByAt_of_desc _ hdesc]
        exact List.reverse_reverse l
  · rename_i hlen
    have hlen2 : l.length ≤ 1 := by omega
    refine ⟨?_, by simp, fun _ => rfl⟩
    match l, hlen2 with
    | [], _ => simp [Spaced]
    | [a], _ => simp [Spaced]
    | a :: b :: t, h2 => simp at h2

/-! ### C5: speed-limiter pass 2 lemmas -/

theorem spaced_of_map_atMs_eq {m : Int} {l₁ l₂ : List Action}
    (h : l₁.map (·.atMs) = l₂.map (·.atMs)) (hs : Spaced m l₁) : Spaced m l₂ := by
  unfold Spaced at hs ⊢
  have hS : List.Chain' (fun x y : Int => m ≤ y - x) (l₁.map (·.atMs)) :=
    (List.chain'_map _).mpr hs
  rw [h] at hS
  exact (List.chain'_map _).mp hS

theorem clampPos_bounds (p : Int) : 0 ≤ clampPos p ∧ clampPos p ≤ 100 := by
  unfold clampPos
  omega

theorem clampPos_of_bounds {p : Int} (h0 : 0 ≤ p) (h1 : p ≤ 100) : clampPos p = p := by
  unfold clampPos
  omega

theorem vibeGo_map_atMs (mi va : Int) (xs : List Action) :
    ∀ (st : VibeState) (last : Action),
      ((vibeGo mi va st last xs).1).map (·.atMs) = xs.map (·.atMs) := by
  induction xs with
  | nil => intro st last; simp [vibeGo]
  | cons current rest ih =>
    intro st last
    unfold vibeGo
    dsimp only
    split
    · simp only [List.map_cons]
      rw [ih]
    · simp only [List.map_cons]
      rw [ih]

theorem vibeGo_pos_bounds (mi va : Int) (xs : List Action) :
    ∀ (st : VibeState) (last : Action),
      ∀ x ∈ (vibeGo mi va st last xs).1, 0 ≤ x.pos ∧ x.pos ≤ 100 := by
  induction xs with
  | nil => intro st last x hx; simp [vibeGo] at hx
  | cons current rest ih =>
    intro st last x hx
    unfold vibeGo at hx
    dsimp only at hx
    split at hx <;>
      (rcases List.mem_cons.mp hx with h | h
       · rw [h]
         exact clampPos_bounds _
       · exact ih _ _ x h)

theorem vibeGo_zero (mi va : Int) (xs : List Action) :
    ∀ (st : VibeState) (last : Action),
      (∀ x ∈ xs, 0 ≤ x.pos ∧ x.pos ≤ 100) →
      (vibeGo mi va st last xs).2 = 0 → (vibeGo mi va st last xs).1 = xs := by
  induction xs with
  | nil => intro st last _ _; simp [vibeGo]
  | cons current rest ih =>
    intro st last hb h
    unfold vibeGo at h ⊢
    dsimp only at h ⊢
    split
    · rename_i hc
      rw [if_pos hc] at h
      simp at h
    · rename_i hc
      rw [if_neg hc] at h
      simp only at h
      have hcb := hb current (List.mem_cons_self _ _)
      have hcl : clampPos current.pos = current.pos := clampPos_of_bounds hcb.1 hcb.2
      have hcur : ({ current with pos := clampPos current.pos } : Action) = current := by
        rw [hcl]
      rw [hcur] at h ⊢
      rw [ih _ _ (fun x hx => hb x (List.mem_cons_of_mem _ hx)) h]

theorem speedLimiterPass2_spec (mi va : Int) (a1 : List Action)
    (hb : ∀ x ∈ a1, 0 ≤ x.pos ∧ x.pos ≤ 100) :
    ((speedLimiterPass2 mi va a1).1).map (·.atMs) = a1.map (·.atMs) ∧
    (∀ x ∈ (speedLimiterPass2 mi va a1).1, 0 ≤ x.pos ∧ x.pos ≤ 100) ∧
    ((speedLimiterPass2 mi va a1).2 = 0 → (speedLimiterPass2 mi va a1).1 = a1) := by
  unfold speedLimiterPass2
  split
  · split
    · exact ⟨rfl, by simp, fun _ => rfl⟩
    · rename_i a0 rest hlen2
      dsimp only
      refine ⟨?_, ?_, ?_⟩
      · simp only [List.map_cons]
        rw [vibeGo_map_atMs]
      · intro x hx
        rcases List.mem_cons.mp hx with h | h
        · rw [h]
          exact hb a0 (List.mem_cons_self _ _)
        · exact vibeGo_pos_bounds mi va rest _ _ x h
      · intro h
        rw [vibeGo_zero mi va rest _ _ (fun x hx => hb x (List.mem_cons_of_mem _ hx)) h]
  · exact ⟨rfl, hb, fun _ => rfl⟩

/-! ### C5: speed-limiter pass 3 lemmas -/

/-- The amended per-pair speed bound: the position delta is at most the exact
cap `speed_threshold · Δt / 1000` plus one position-unit (the slack that
`int()` truncation towards zero can add on a downward cap). -/
def CapBound (thr : ℚ) (p c : Action) : Prop :=
  ((|c.pos - p.pos| : Int) : ℚ) ≤ thr * ((c.atMs - p.atMs : Int) : ℚ) / 1000 + 1

theorem capGo_zero (thr : ℚ) (xs : List Action) :
    ∀ prev : Action, (capGo thr prev xs).2 = 0 → (capGo thr prev xs).1 = xs := by
  induction xs with
  | nil => intro prev _; simp [capGo]
  | cons c rest ih =>
    intro prev h
    unfold capGo at h ⊢
    dsimp only at h ⊢
    by_cases hc : ((c.atMs - prev.atMs : Int) : ℚ) / 1000 = 0
    · rw [if_pos hc] at h ⊢
      simp only at h
      rw [ih c h]
    · rw [if_neg hc] at h ⊢
      by_cases hcap : thr < |((c.pos - prev.pos : Int) : ℚ)| /
          (((c.atMs - prev.atMs : Int) : ℚ) / 1000)
      · rw [if_pos hcap] at h
        simp at h
      · rw [if_neg hcap] at h ⊢
        simp only at h
        rw [ih c h]

theorem capGo_bound (thr : ℚ) (hthr : 0 ≤ thr) (m : Int) (hm : 1 ≤ m)
    (xs : List Action) :
    ∀ prev : Action,
      0 ≤ prev.pos → prev.pos ≤ 100 →
      (∀ x ∈ xs, 0 ≤ x.pos ∧ x.pos ≤ 100) →
      Spaced m (prev :: xs) →
      List.Chain' (CapBound thr) (prev :: (capGo thr prev xs).1) ∧
      ((capGo thr prev xs).1).map (·.atMs) = xs.map (·.atMs) ∧
      (∀ x ∈ (capGo thr prev xs).1, 0 ≤ x.pos ∧ x.pos ≤ 100) := by
  induction xs with
  | nil =>
    intro prev _ _ _ _
    refine ⟨by simp [capGo], by simp [capGo], by simp [capGo]⟩
  | cons c rest ih =>
    intro prev hp0 hp1 hb hsp
    have hcb := hb c (List.mem_cons_self _ _)
    have hbt : ∀ x ∈ rest, 0 ≤ x.pos ∧ x.pos ≤ 100 :=
      fun x hx => hb x (List.mem_cons_of_mem _ hx)
    have hdt : m ≤ c.atMs - prev.atMs := (List.chain'_cons.mp hsp).1
    have hsp' : Spaced m (c :: rest) := (List.chain'_cons.mp hsp).2
    have hdt1 : 1 ≤ c.atMs - prev.atMs := le_trans hm hdt
    have hdtQ : (0 : ℚ) < ((c.atMs - prev.atMs : Int) : ℚ) / 1000 := by
      apply div_pos _ (by norm_num)
      exact_mod_cast hdt1
    have hne0 : ¬ (((c.atMs - prev.atMs : Int) : ℚ) / 1000 = 0) := ne_of_gt hdtQ
    unfold capGo
    dsimp only
    rw [if_neg hne0]
    by_cases hcap : thr < |((c.pos - prev.pos : Int) : ℚ)| /
        (((c.atMs - prev.atMs : Int) : ℚ) / 1000)
    · rw [if_pos hcap]
      -- the cap rewrites the current position
      set dts : ℚ := ((c.atMs - prev.atMs : Int) : ℚ) / 1000 with hdts
      set d : ℚ := thr * dts with hd
      have hdnn : 0 ≤ d := mul_nonneg hthr (le_of_lt hdtQ)
      by_cases hup : prev.pos < c.pos
      · rw [if_pos hup]
        have hnn : (0 : ℚ) ≤ (prev.pos : ℚ) + d := by
          have : (0 : ℚ) ≤ (prev.pos : ℚ) := by exact_mod_cast hp0
          linarith
        have hraw : pyInt ((prev.pos : ℚ) + d) = prev.pos + ⌊d⌋ := by
          unfold pyInt
          rw [if_pos hnn]
          exact Int.floor_int_add prev.pos d
        rw [hraw]
        have hk0 : 0 ≤ ⌊d⌋ := Int.floor_nonneg.mpr hdnn
        have hkd : (⌊d⌋ : ℚ) ≤ d := Int.floor_le d
        have hclamp : clampPos (prev.pos + ⌊d⌋) = min 100 (prev.pos + ⌊d⌋) := by
          unfold clampPos
          omega
        have hcb2 : CapBound thr prev { c with pos := clampPos (prev.pos + ⌊d⌋) } := by
          unfold CapBound
          have habs : |({ c with pos := clampPos (prev.pos + ⌊d⌋) } : Action).pos - prev.pos| ≤ ⌊d⌋ := by
            dsimp only
            rw [hclamp]
            rw [abs_of_nonneg (by omega : (0 : Int) ≤ min 100 (prev.pos + ⌊d⌋) - prev.pos)]
            omega
          have : ((|({ c with pos := clampPos (prev.pos + ⌊d⌋) } : Action).pos - prev.pos| : Int) : ℚ) ≤ (⌊d⌋ : ℚ) := by
            exact_mod_cast habs
          calc ((|({ c with pos := clampPos (prev.pos + ⌊d⌋) } : Action).pos - prev.pos| : Int) : ℚ)
              ≤ (⌊d⌋ : ℚ) := this
            _ ≤ d := hkd
            _ = thr * ((c.atMs - prev.atMs : Int) : ℚ) / 1000 := by
                rw [hd, hdts, mul_div_assoc]
            _ ≤ thr * ((c.atMs - prev.atMs : Int) : ℚ) / 1000 + 1 := by linarith
        have hrec := ih { c with pos := clampPos (prev.pos + ⌊d⌋) }
          (clampPos_bounds _).1 (clampPos_bounds _).2 hbt
          (by
            rw [Spaced, List.chain'_cons'] at hsp' ⊢
            exact hsp')
        refine ⟨?_, ?_, ?_⟩
        · rw [List.chain'_cons]
          exact ⟨hcb2, hrec.1⟩
        · simp only [List.map_cons]
          rw [hrec.2.1]
        · intro x hx
          rcases List.mem_cons.mp hx with h | h
          · rw [h]
            exact clampPos_bounds _
          · exact hrec.2.2 x h
      · rw [if_neg hup]
        by_cases h0 : (0 : ℚ) ≤ (prev.pos : ℚ) - d
        · have hraw : pyInt ((prev.pos : ℚ) - d) = prev.pos - ⌈d⌉ := by
            unfold pyInt
            rw [if_pos h0]
            rw [sub_eq_add_neg, Int.floor_int_add, Int.floor_neg]
            ring
          rw [hraw]
          have hc0 : 0 ≤ ⌈d⌉ := Int.ceil_nonneg hdnn
          have hfl : 0 ≤ prev.pos - ⌈d⌉ := by
            have := Int.floor_nonneg.mpr h0
            rw [sub_eq_add_neg, Int.floor_int_add, Int.floor_neg] at this
            omega
          have hclamp : clampPos (prev.pos - ⌈d⌉) = prev.pos - ⌈d⌉ :=
            clampPos_of_bounds hfl (by omega)
          have hcd1 : (⌈d⌉ : ℚ) ≤ d + 1 := le_of_lt (Int.ceil_lt_add_one d)
          have hcb2 : CapBound thr prev { c with pos := clampPos (prev.pos - ⌈d⌉) } := by
            unfold CapBound
            have habs : |({ c with pos := clampPos (prev.pos - ⌈d⌉) } : Action).pos - prev.pos| = ⌈d⌉ := by
              dsimp only
              rw [hclamp]
              have he : prev.pos - ⌈d⌉ - prev.pos = -⌈d⌉ := by ring
              rw [he, abs_neg, abs_of_nonneg hc0]
            rw [habs]
            calc ((⌈d⌉ : Int) : ℚ) ≤ d + 1 := hcd1
              _ = thr * ((c.atMs - prev.atMs : Int) : ℚ) / 1000 + 1 := by
                  rw [hd, hdts, mul_div_assoc]
          have hrec := ih { c with pos := clampPos (prev.pos - ⌈d⌉) }
            (clampPos_bounds _).1 (clampPos_bounds _).2 hbt
            (by
              rw [Spaced, List.chain'_cons'] at hsp' ⊢
              exact hsp')
          refine ⟨?_, ?_, ?_⟩
          · rw [List.chain'_cons]
            exact ⟨hcb2, hrec.1⟩
          · simp only [List.map_cons]
            rw [hrec.2.1]
          · intro x hx
            rcases List.mem_cons.mp hx with h | h
            · rw [h]
              exact clampPos_bounds _
            · exact hrec.2.2 x h
        · -- the capped position would go below zero and is clipped to 0
          have hneg : (prev.pos : ℚ) - d < 0 := lt_of_not_le h0
          have hraw : pyInt ((prev.pos : ℚ) - d) = ⌈(prev.pos : ℚ) - d⌉ := by
            unfold pyInt
            rw [if_neg h0]
          rw [hraw]
          have hcle : ⌈(prev.pos : ℚ) - d⌉ ≤ 0 := Int.ceil_le.mpr (by exact_mod_cast le_of_lt hneg)
          have hclamp : clampPos ⌈(prev.pos : ℚ) - d⌉ = 0 := by
            unfold clampPos
            omega
          have hcb2 : CapBound thr prev { c with pos := clampPos ⌈(prev.pos : ℚ) - d⌉ } := by
            unfold CapBound
            have habs : |({ c with pos := clampPos ⌈(prev.pos : ℚ) - d⌉ } : Action).pos - prev.pos| = prev.pos := by
              dsimp only
              rw [hclamp, zero_sub, abs_neg, abs_of_nonneg hp0]
            rw [habs]
            have hpd : (prev.pos : ℚ) < d := by linarith
            calc ((prev.pos : Int) : ℚ) ≤ d + 1 := by linarith
              _ = thr * ((c.atMs - prev.atMs : Int) : ℚ) / 1000 + 1 := by
                  rw [hd, hdts, mul_div_assoc]
          have hrec := ih { c with pos := clampPos ⌈(prev.pos : ℚ) - d⌉ }
            (clampPos_bounds _).1 (clampPos_bounds _).2 hbt
            (by
              rw [Spaced, List.chain'_cons'] at hsp' ⊢
              exact hsp')
          refine ⟨?_, ?_, ?_⟩
          · rw [List.chain'_cons]
            exact ⟨hcb2, hrec.1⟩
          · simp only [List.map_cons]
            rw [hrec.2.1]
          · intro x hx
            rcases List.mem_cons.mp hx with h | h
            · rw [h]
              exact clampPos_bounds _
            · exact hrec.2.2 x h
    · rw [if_neg hcap]
      -- no cap: the existing pair already satisfies the exact bound
      have hle : |((c.pos - prev.pos : Int) : ℚ)| ≤
          thr * (((c.atMs - prev.atMs : Int) : ℚ) / 1000) := by
        have := not_lt.mp hcap
        rw [div_le_iff hdtQ] at this
        linarith [this]
      have hcb2 : CapBound thr prev c := by
        unfold CapBound
        rw [Int.cast_abs]
        push_cast
        push_cast at hle
        rw [mul_div_assoc]
        linarith
      have hrec := ih c hcb.1 hcb.2 hbt hsp'
      refine ⟨?_, ?_, ?_⟩
      · rw [List.chain'_cons]
        exact ⟨hcb2, hrec.1⟩
      · simp only [List.map_cons]
        rw [hrec.2.1]
      · intro x hx
        rcases List.mem_cons.mp hx with h | h
        · rw [h]
          exact hcb
        · exact hrec.2.2 x h

theorem speedLimiterPass3_spec (thr : ℚ) (hthr : 0 ≤ thr) (m : Int) (hm : 1 ≤ m)
    (a2 : List Action) (hb : ∀ x ∈ a2, 0 ≤ x.pos ∧ x.pos ≤ 100)
    (hsp : Spaced m a2) :
    List.Chain' (CapBound thr) (speedLimiterPass3 thr a2).1 ∧
    Spaced m (speedLimiterPass3 thr a2).1 ∧
    ((speedLimiterPass3 thr a2).2 = 0 → (speedLimiterPass3 thr a2).1 = a2) := by
  unfold speedLimiterPass3
  split
  · split
    · exact ⟨by simp, by simp [Spaced], fun _ => rfl⟩
    · rename_i a0 rest hlen
      dsimp only
      have ha0 := hb a0 (List.mem_cons_self _ _)
      have hcg := capGo_bound thr hthr m hm rest a0 ha0.1 ha0.2
        (fun x hx => hb x (List.mem_cons_of_mem _ hx)) hsp
      refine ⟨hcg.1, ?_, ?_⟩
      · refine spaced_of_map_atMs_eq ?_ hsp
        simp only [List.map_cons]
        rw [hcg.2.1]
      · intro h
        rw [capGo_zero thr rest a0 h]
  · exact ⟨by
      rename_i hlen
      match a2, hlen with
      | [], _ => simp
      | [a], _ => simp
      | a :: b :: t, h => simp at h,
      hsp, fun _ => rfl⟩

set_option maxHeartbeats 800000 in
/-- **C5, amended.**  Speed-limiter bound: for every strictly time-sorted axis
list with positions in `[0,100]`, every `min_interval ≥ 1`, `vibe_amount`, and
`speed_threshold ≥ 0`, after `apply_speed_limiter` consecutive output actions
are at least `min_interval` ms apart and satisfy
`abs(pos2-pos1) ≤ speed_threshold·(at2-at1)/1000 + 1`; equivalently the speed
exceeds `speed_threshold` by at most `1000/(at2-at1)` units/s.  The `+1` slack
(absent from the claim's `+ epsilon` for any fixed small epsilon) is forced by
the `int()` truncation of the capped position. -/
theorem apply_speed_limiter_bound (l : List Action) (mi va : Int) (thr : ℚ)
    (hm : 1 ≤ mi) (hthr : 0 ≤ thr) (hs : SortedStrict l)
    (hb : ∀ x ∈ l, 0 ≤ x.pos ∧ x.pos ≤ 100) :
    Spaced mi (applySpeedLimiter l mi va thr) ∧
    List.Chain' (CapBound thr) (applySpeedLimiter l mi va thr) := by
  unfold applySpeedLimiter
  split
  · rename_i hlen
    match l, hlen with
    | [], _ => exact ⟨by simp [Spaced], by simp⟩
    | [a], _ => exact ⟨by simp [Spaced], by simp⟩
    | a :: b :: t, h => (simp only [List.length_cons] at h; omega)
  · rename_i hlen
    dsimp only
    have h1 := speedLimiterPass1_spec mi hm l hs
    have hb1 : ∀ x ∈ (speedLimiterPass1 mi l).1, 0 ≤ x.pos ∧ x.pos ≤ 100 :=
      fun x hx => hb x (h1.2.1 x hx)
    have h2 := speedLimiterPass2_spec mi va (speedLimiterPass1 mi l).1 hb1
    have hsp2 : Spaced mi (speedLimiterPass2 mi va (speedLimiterPass1 mi l).1).1 :=
      spaced_of_map_atMs_eq h2.1.symm h1.1
    have h3 := speedLimiterPass3_spec thr hthr mi hm
      (speedLimiterPass2 mi va (speedLimiterPass1 mi l).1).1 h2.2.1 hsp2
    split
    · exact ⟨h3.2.1, h3.1⟩
    · rename_i hchanges
      push_neg at hchanges
      have e1 : (speedLimiterPass1 mi l).1 = l := h1.2.2 (by omega)
      have e2 : (speedLimiterPass2 mi va (speedLimiterPass1 mi l).1).1 =
          (speedLimiterPass1 mi l).1 := h2.2.2 (by omega)
      have e3 : (speedLimiterPass3 thr
          (speedLimiterPass2 mi va (speedLimiterPass1 mi l).1).1).1 =
          (speedLimiterPass2 mi va (speedLimiterPass1 mi l).1).1 :=
        h3.2.2 (by omega)
      have hl3 : (speedLimiterPass3 thr
          (speedLimiterPass2 mi va (speedLimiterPass1 mi l).1).1).1 = l :=
        e3.trans (e2.trans e1)
      rw [← hl3]
      exact ⟨h3.2.1, h3.1⟩

/-- **C5, counterexample.**  The claim's bound
`abs(pos2-pos1)/((at2-at1)/1000) ≤ speed_threshold + epsilon` fails for any
fixed small epsilon: on `[(0,50),(1,0)]` with `min_interval=1`, `vibe_amount=0`
and `speed_threshold = 2/5`, the downward cap computes
`int(50 - 0.0004) = 49`, so the output pair `(0,50),(1,49)` has speed
`1000` units/s — exceeding the threshold `2/5` even with `epsilon = 999`. -/
theorem apply_speed_limiter_speed_exceeds_threshold :
    applySpeedLimiter [⟨0, 50⟩, ⟨1, 0⟩] 1 0 (2/5) = [⟨0, 50⟩, ⟨1, 49⟩] ∧
    ((|(49 : Int) - 50| : Int) : ℚ) / (((1 : Int) - 0 : Int) / 1000 : ℚ) = 1000 ∧
    ¬ ((1000 : ℚ) ≤ 2/5 + 999) := by
  refine ⟨?_, by norm_num, by norm_num⟩
  norm_num [applySpeedLimiter, speedLimiterPass1, speedLimiterPass2,
    speedLimiterPass3, intervalKeepGo, sortByAt, List.insertionSort,
    List.orderedInsert, vibeGo, capGo, pyInt, clampPos]

/-- **C5, witness.**  The amended bound at a concrete input:
`[(0,100),(100,0)]`, `min_interval = 50`, `speed_threshold = 300`. -/
theorem apply_speed_limiter_bound_witness :
    Spaced 50 (applySpeedLimiter [⟨0, 100⟩, ⟨100, 0⟩] 50 0 300) ∧
    List.Chain' (CapBound 300) (applySpeedLimiter [⟨0, 100⟩, ⟨100, 0⟩] 50 0 300) :=
  apply_speed_limiter_bound [⟨0, 100⟩, ⟨100, 0⟩] 50 0 300 (by norm_num)
    (by norm_num) (by simp [SortedStrict]) (by simp)

/-! ## `AppStageProcessor` (src/application/logic/app_stage_processor.py)

The orchestrator model covers the parts of `start_full_analysis` (lines
341-439), `_run_full_analysis_thread_target` (lines 441-654) and
`process_gui_events` (lines 963-1199) that the claims are about: the Stage-1
cache/skip decision, the stage-invocation control flow, and the
funscript/chapter mutations performed by the GUI-event handlers.  Filesystem
writes, logging and display-only status fields are not modelled; the
`os.path.exists` checks become the oracle `pathExists`. -/

/-- A `VideoSegment` / chapter record (also the dict payload that
`VideoSegment.from_dict` reads; `from_dict` is the identity here since only
these fields matter to the claims). -/
structure VideoSegment where
  start_frame_id : Int
  end_frame_id : Int
  major_position : String
deriving Repr, DecidableEq

/-- The offline tracker modes the thread distinguishes (`TrackerMode`). -/
inductive TrackerMode where
  | offline2Stage
  | offline3Stage
deriving Repr, DecidableEq

/-- The Stage-1 msgpack output path: the canonical full-video path returned by
`get_output_path_for_file(video, ".msgpack")`, or a range-named
`_range_{start}-{end}.msgpack` path (lines 380, 406, 417). -/
inductive S1Path where
  | full
  | range (sname ename : String)
deriving Repr, DecidableEq

/-- The inputs of one full-analysis run, with `os.path.exists` as an oracle. -/
structure PipelineConfig where
  frame_range_override : Option (Int × Int)
  force_rerun_stage1 : Bool
  range_is_active : Bool
  range_start_frame : Option Int
  range_end_frame : Option Int
  pathExists : S1Path → Bool
  selected_mode : TrackerMode

/-- The Stage-1 path / `should_run_s1` decision of `start_full_analysis`
(lines 401-422).  `fm.stage1_output_msgpack_path` is the returned path;
`should_run_s1` only drives status text, the thread re-decides skipping. -/
def startFullAnalysisS1Path (cfg : PipelineConfig) : S1Path × Bool :=
  match cfg.frame_range_override with
  | some (s, e) => (.range (toString s) (toString e), true)
  | none =>
    if cfg.range_is_active then
      if cfg.pathExists .full ∧ ¬ cfg.force_rerun_stage1 then (.full, false)
      else
        let sname := match cfg.range_start_frame with
          | some v => toString v
          | none => toString (0 : Int)
        let ename := match cfg.range_end_frame with
          | some v => toString v
          | none => "end"
        let p := S1Path.range sname ename
        (p, cfg.force_rerun_stage1 ∨ ¬ cfg.pathExists p)
    else (.full, cfg.force_rerun_stage1 ∨ ¬ cfg.pathExists .full)

/-- Events and outcomes of the long-running stage calls, which block on
external modules and the shared stop event. -/
structure ThreadOracle where
  s1_success_if_run : Bool
  stop_after_s1 : Bool
  s2_success : Bool
  stop_after_s2 : Bool
  segments_for_s3_nonempty : Bool
  s3_success : Bool

/-- Which stage modules one `_run_full_analysis_thread_target` run invoked,
and the Stage-1 path it used. -/
structure RunTrace where
  stage1_invoked : Bool
  stage2_invoked : Bool
  stage3_invoked : Bool
  s1_path : S1Path
deriving Repr, DecidableEq

/-- The control flow of `_run_full_analysis_thread_target` after Stage 1
(lines 494-637): early exits on stop/failure, the autotune early return at
line 504, Stage 2, and — in 3-stage mode with relevant segments — Stage 3. -/
def threadAfterStage1 (cfg : PipelineConfig) (orc : ThreadOracle) (p : S1Path)
    (invoked : Bool) (s1_success : Bool) : RunTrace :=
  if orc.stop_after_s1 ∨ ¬ s1_success then ⟨invoked, false, false, p⟩
  else if cfg.frame_range_override.isSome then ⟨invoked, false, false, p⟩
  else if orc.stop_after_s2 ∨ ¬ orc.s2_success then ⟨invoked, true, false, p⟩
  else
    match cfg.selected_mode with
    | .offline2Stage => ⟨invoked, true, false, p⟩
    | .offline3Stage =>
      if orc.segments_for_s3_nonempty then ⟨invoked, true, true, p⟩
      else ⟨invoked, true, false, p⟩

/-- `_run_full_analysis_thread_target`'s Stage-1 section (lines 457-506):
`should_skip_stage1 = not force_rerun and target_path and exists(target_path)`
(line 472; the target path is always set by `start_full_analysis`), never
skipped when a frame-range override is present (line 474). -/
def runFullAnalysisThread (cfg : PipelineConfig) (orc : ThreadOracle) : RunTrace :=
  let p := (startFullAnalysisS1Path cfg).1
  if (¬ cfg.force_rerun_stage1 ∧ cfg.pathExists p = true) ∧
      cfg.frame_range_override = none then
    threadAfterStage1 cfg orc p false true
  else
    threadAfterStage1 cfg orc p true orc.s1_success_if_run

/-! ### `process_gui_events` chapter / funscript mutations (lines 1037-1199) -/

/-- The GUI events the thread enqueues whose handlers touch the chapter list or
the funscript timelines; progress/status events only touch display fields and
are collapsed into `displayOnly`. -/
inductive GuiEvent where
  | stage2_results_success (primary_actions secondary_actions : List Action)
      (video_segments : List VideoSegment)
  | stage2_results_success_segments_only (video_segments : List VideoSegment)
  | analysis_message (status : Option String) (video_path : Option String)
      (video_segments : Option (List VideoSegment))
  | load_s2_overlay
  | stage1_completed
  | stage2_completed
  | stage3_completed
  | displayOnly

/-- The application state the handlers mutate: the live chapter list, the two
funscript timelines, and the settings/flags the handlers read. -/
structure AppState where
  video_chapters : List VideoSegment
  primary_actions : List Action
  secondary_actions : List Action
  force_rerun_stage2_segmentation : Bool
  tracking_axis_mode : String
  single_axis_output_target : String
  enable_auto_post_processing : Bool
  is_batch_processing_active : Bool
  batch_apply_post_processing : Bool
  project_dirty : Bool
deriving Repr, DecidableEq

/-- Modelled from the spec: `clear_timeline_history_and_set_new_baseline`
lives in the funscript processor, whose source file is not in the repository
snapshot (only its callers are).  Per §4.2, axis routing "must be applied
identically whether the result is a full-video overwrite
(`clear_timeline_history_and_set_new_baseline`) or a sub-range patch": the
full-video overwrite replaces the given timeline's action list wholesale
(undo-history baseline bookkeeping is not modelled). -/
def clearTimelineHistoryAndSetNewBaseline (st : AppState) (timeline : Nat)
    (acts : List Action) : AppState :=
  if timeline = 1 then { st with primary_actions := acts }
  else if timeline = 2 then { st with secondary_actions := acts }
  else st

/-- One `process_gui_events` dispatch step (lines 963-1199), restricted to the
chapter/funscript effects.  `postproc` stands for the external
`funscript_processor.apply_automatic_post_processing()` call (its source file
is not in the snapshot); file saving is filesystem-only and not modelled. -/
def processGuiEvent (postproc : AppState → AppState) (st : AppState)
    (ev : GuiEvent) : AppState :=
  match ev with
  | .stage2_results_success prim sec segs =>
    -- lines 1037-1082
    let st1 :=
      if st.force_rerun_stage2_segmentation then { st with video_chapters := segs }
      else st
    let st2 :=
      if st1.tracking_axis_mode = "both" then
        clearTimelineHistoryAndSetNewBaseline
          (clearTimelineHistoryAndSetNewBaseline st1 1 prim) 2 sec
      else if st1.tracking_axis_mode = "vertical" then
        if st1.single_axis_output_target = "primary" then
          clearTimelineHistoryAndSetNewBaseline st1 1 prim
        else
          clearTimelineHistoryAndSetNewBaseline st1 2 prim
      else st1   -- "horizontal": Stage 2 has no horizontal data, nothing modified
    { st2 with project_dirty := true }
  | .stage2_results_success_segments_only segs =>
    -- lines 1084-1099
    let st1 :=
      if st.force_rerun_stage2_segmentation then { st with video_chapters := segs }
      else st
    { st1 with project_dirty := true }
  | .analysis_message status video_path segs? =>
    -- lines 1146-1199
    if status = some "Completed" then
      match video_path with
      | none => st
      | some _ =>
        let st1 :=
          match segs? with
          | some segs => { st with video_chapters := segs }   -- lines 1161-1165
          | none => st
        let post_processing_enabled :=
          if st1.is_batch_processing_active then st1.batch_apply_post_processing
          else st1.enable_auto_post_processing
        if post_processing_enabled then postproc st1 else st1
    else st
  | _ => st

/-- Draining the event queue, as the UI thread's `process_gui_events` does. -/
def processGuiEvents (postproc : AppState → AppState) (st : AppState)
    (evs : List GuiEvent) : AppState :=
  evs.foldl (processGuiEvent postproc) st

/-! ### C2: axis routing, vertical mode with secondary target -/

/-- **C2.**  In `tracking_axis_mode = "vertical"` with
`single_axis_output_target = "secondary"`, applying a Stage-2 result
(`stage2_results_success`) leaves `primary_actions` unchanged and replaces
`secondary_actions` wholesale with the computed primary output. -/
theorem stage2_vertical_secondary_routing (postproc : AppState → AppState)
    (st : AppState) (prim sec : List Action) (segs : List VideoSegment)
    (hmode : st.tracking_axis_mode = "vertical")
    (htarget : st.single_axis_output_target = "secondary") :
    (processGuiEvent postproc st (.stage2_results_success prim sec segs)).primary_actions =
      st.primary_actions ∧
    (processGuiEvent postproc st (.stage2_results_success prim sec segs)).secondary_actions =
      prim := by
  unfold processGuiEvent
  dsimp only
  split <;>
    (simp only [hmode, htarget]
     rw [if_neg (by decide : ¬ ("vertical" : String) = "both"),
       if_neg (by decide : ¬ ("secondary" : String) = "primary")]
     simp [clearTimelineHistoryAndSetNewBaseline])

/-- **C2, witness.**  A concrete state in vertical/secondary mode. -/
theorem stage2_vertical_secondary_routing_witness :
    (processGuiEvent id
        { video_chapters := [], primary_actions := [⟨0, 10⟩],
          secondary_actions := [⟨0, 20⟩],
          force_rerun_stage2_segmentation := false,
          tracking_axis_mode := "vertical", single_axis_output_target := "secondary",
          enable_auto_post_processing := false, is_batch_processing_active := false,
          batch_apply_post_processing := false, project_dirty := false }
        (.stage2_results_success [⟨5, 70⟩] [⟨5, 30⟩] [])).primary_actions =
      [⟨0, 10⟩] ∧
    (processGuiEvent id
        { video_chapters := [], primary_actions := [⟨0, 10⟩],
          secondary_actions := [⟨0, 20⟩],
          force_rerun_stage2_segmentation := false,
          tracking_axis_mode := "vertical", single_axis_output_target := "secondary",
          enable_auto_post_processing := false, is_batch_processing_active := false,
          batch_apply_post_processing := false, project_dirty := false }
        (.stage2_results_success [⟨5, 70⟩] [⟨5, 30⟩] [])).secondary_actions =
      [⟨5, 70⟩] :=
  stage2_vertical_secondary_routing id _ [⟨5, 70⟩] [⟨5, 30⟩] [] rfl rfl

/-! ### C3: chapter preservation fails at the completion event -/

/-- **C3.**  The claim that with `force_rerun_stage2_segmentation = False` the
live chapter list is never overwritten by newly computed segments during the
completion sequence is violated by the code: the `stage2_results_success`
handler preserves the chapters (logging "Preserving existing chapters"), but
the subsequent `analysis_message` "Completed" handler (lines 1156-1165)
unconditionally replaces `video_chapters` with the segments carried in the
completion payload — which the 2-stage thread fills with the newly computed
`video_segments` (lines 557-563).  Evaluated on the exact event sequence the
2-stage thread enqueues, the user's chapter is replaced. -/
theorem chapters_overwritten_despite_preserve_flag :
    (processGuiEvents id
        { video_chapters := [⟨0, 10, "Handjob / Blowjob"⟩],
          primary_actions := [], secondary_actions := [],
          force_rerun_stage2_segmentation := false,
          tracking_axis_mode := "both", single_axis_output_target := "primary",
          enable_auto_post_processing := false, is_batch_processing_active := false,
          batch_apply_post_processing := false, project_dirty := false }
        [.stage2_completed, .load_s2_overlay,
         .stage2_results_success [] [] [⟨0, 20, "Cowgirl / Missionary"⟩],
         .analysis_message (some "Completed") (some "video.mp4")
           (some [⟨0, 20, "Cowgirl / Missionary"⟩])]).video_chapters =
      [⟨0, 20, "Cowgirl / Missionary"⟩] ∧
    ([⟨0, 20, "Cowgirl / Missionary"⟩] : List VideoSegment) ≠
      [⟨0, 10, "Handjob / Blowjob"⟩] := by
  constructor
  · rfl
  · decide

/-! ### C4: Stage-1 cache skip -/

/-- **C4.**  When the full (non-range) Stage-1 msgpack exists at the canonical
path, `force_rerun_stage1` is false and no frame-range override is given, the
thread never invokes the Stage-1 module and the Stage-1 output path handed to
the downstream stages is the canonical cached path. -/
theorem stage1_cache_skip (cfg : PipelineConfig) (orc : ThreadOracle)
    (hexists : cfg.pathExists .full = true)
    (hforce : cfg.force_rerun_stage1 = false)
    (hoverride : cfg.frame_range_override = none) :
    (runFullAnalysisThread cfg orc).stage1_invoked = false ∧
    (runFullAnalysisThread cfg orc).s1_path = .full := by
  have hpath : (startFullAnalysisS1Path cfg).1 = .full := by
    unfold startFullAnalysisS1Path
    rw [hoverride]
    dsimp only
    split
    · rw [if_pos ⟨hexists, by rw [hforce]; exact Bool.false_ne_true⟩]
    · rfl
  unfold runFullAnalysisThread
  rw [hpath]
  rw [if_pos ⟨⟨by rw [hforce]; exact Bool.false_ne_true, hexists⟩, hoverride⟩]
  unfold threadAfterStage1
  split <;> first
    | exact ⟨rfl, rfl⟩
    | (split <;> first
        | exact ⟨rfl, rfl⟩
        | (split <;> first
            | exact ⟨rfl, rfl⟩
            | (split <;> first
                | exact ⟨rfl, rfl⟩
                | (split <;> exact ⟨rfl, rfl⟩))))

/-- **C4, witness.**  A concrete configuration with the cache present. -/
theorem stage1_cache_skip_witness :
    (runFullAnalysisThread
      { frame_range_override := none, force_rerun_stage1 := false,
        range_is_active := false, range_start_frame := none, range_end_frame := none,
        pathExists := fun _ => true, selected_mode := .offline3Stage }
      { s1_success_if_run := true, stop_after_s1 := false, s2_success := true,
        stop_after_s2 := false, segments_for_s3_nonempty := true,
        s3_success := true }).stage1_invoked = false ∧
    (runFullAnalysisThread
      { frame_range_override := none, force_rerun_stage1 := false,
        range_is_active := false, range_start_frame := none, range_end_frame := none,
        pathExists := fun _ => true, selected_mode := .offline3Stage }
      { s1_success_if_run := true, stop_after_s1 := false, s2_success := true,
        stop_after_s2 := false, segments_for_s3_nonempty := true,
        s3_success := true }).s1_path = .full :=
  stage1_cache_skip _ _ rfl rfl rfl

/-! ### C8: autotune (frame-range override) runs Stage 1 and stops -/

/-- **C8.**  Whenever a frame-range override is present, the cached-skip path
is never taken — Stage 1 is always executed, regardless of any existing cache
file or the force flag — and the thread returns after Stage 1 without ever
invoking Stage 2 or Stage 3, whatever the stage outcomes are. -/
theorem autotune_runs_stage1_then_stops (cfg : PipelineConfig) (orc : ThreadOracle)
    (r : Int × Int) (hov : cfg.frame_range_override = some r) :
    (runFullAnalysisThread cfg orc).stage1_invoked = true ∧
    (runFullAnalysisThread cfg orc).stage2_invoked = false ∧
    (runFullAnalysisThread cfg orc).stage3_invoked = false := by
  unfold runFullAnalysisThread
  rw [if_neg (by
    intro h
    rw [hov] at h
    exact Option.noConfusion h.2)]
  unfold threadAfterStage1
  split
  · exact ⟨rfl, rfl, rfl⟩
  · rw [if_pos (by rw [hov]; rfl)]
    exact ⟨rfl, rfl, rfl⟩

/-- **C8, witness.**  A concrete autotune run with the range cache present and
every stage reporting success: Stage 1 runs, Stages 2 and 3 do not. -/
theorem autotune_runs_stage1_then_stops_witness :
    (runFullAnalysisThread
      { frame_range_override := some (0, 100), force_rerun_stage1 := false,
        range_is_active := false, range_start_frame := none, range_end_frame := none,
        pathExists := fun _ => true, selected_mode := .offline3Stage }
      { s1_success_if_run := true, stop_after_s1 := false, s2_success := true,
        stop_after_s2 := false, segments_for_s3_nonempty := true,
        s3_success := true }).stage1_invoked = true ∧
    (runFullAnalysisThread
      { frame_range_override := some (0, 100), force_rerun_stage1 := false,
        range_is_active := false, range_start_frame := none, range_end_frame := none,
        pathExists := fun _ => true, selected_mode := .offline3Stage }
      { s1_success_if_run := true, stop_after_s1 := false, s2_success := true,
        stop_after_s2 := false, segments_for_s3_nonempty := true,
        s3_success := true }).stage2_invoked = false ∧
    (runFullAnalysisThread
      { frame_range_override := some (0, 100), force_rerun_stage1 := false,
        range_is_active := false, range_start_frame := none, range_end_frame := none,
        pathExists := fun _ => true, selected_mode := .offline3Stage }
      { s1_success_if_run := true, stop_after_s1 := false, s2_success := true,
        stop_after_s2 := false, segments_for_s3_nonempty := true,
        s3_success := true }).stage3_invoked = false :=
  autotune_runs_stage1_then_stops _ _ (0, 100) rfl

/-! ## `Stage3OpticalFlowProcessor.process_segments`
(src/detection/cd/stage_3_of_processor.py lines 122-391)

The segment loop: segments whose `major_position` is "Not Relevant" or
"Close Up" are skipped (lines 129-132 compute the relevant list, line 157
`continue`s over excluded ones); when no relevant segment exists the method
returns empty action lists before streaming anything (lines 134-138).  For a
processed segment, frames `[max(0, start_frame_id - num_warmup_frames_s3),
end_frame_id]` are streamed (lines 174-189), and an action is written only for
frames inside `[start_frame_id, end_frame_id]` (line 325), routed by the axis
settings (lines 341-356) into the shared `DualAxisFunscript` via `add_action`.

The per-frame ROI definition and optical flow (lines 226-322) read pixel data
and OpenCV state and are abstracted into the oracle
`flow : ATRSegment → Int → Int × Int` giving `(final_primary_pos,
final_secondary_pos)` per frame; this is faithful to the claim because all
per-segment tracker state is reset at the start of each segment (lines
165-172), so the values for a segment's frames do not depend on which other
segments were processed.  The cancellation event is modelled as never set. -/

/-- A Stage-2 `ATRSegment` as Stage 3 reads it. -/
structure ATRSegment where
  start_frame_id : Int
  end_frame_id : Int
  major_position : String
deriving Repr, DecidableEq

/-- `seg.major_position in ["Not Relevant", "Close Up"]` (lines 131, 157). -/
def excludedPosition (p : String) : Prop :=
  p = "Not Relevant" ∨ p = "Close Up"

instance (p : String) : Decidable (excludedPosition p) :=
  inferInstanceAs (Decidable (p = "Not Relevant" ∨ p = "Close Up"))

/-- The configuration Stage 3 reads from `common_app_config` and the tracker. -/
structure S3Config where
  num_warmup_frames_s3 : Int
  video_fps : ℚ
  tracking_axis_mode : String
  single_axis_output_target : String
  output_delay_frames : Int
  flow_history_window_smooth : Int

/-- The frame ids `stream_frames_for_segment` yields for
`[start_frame_abs_idx, start_frame_abs_idx + num_frames_to_read)`. -/
def frameRange (s e : Int) : List Int :=
  (List.range (e + 1 - s).toNat).map (fun i => s + (i : Int))

/-- One frame of the per-segment loop (lines 193-360): lag compensation
(lines 327-340), axis routing (lines 341-355) and the `add_action` call
(line 356), performed only inside the segment's own frame window (line 325). -/
def s3ProcessFrame (cfg : S3Config) (flow : ATRSegment → Int → Int × Int)
    (seg : ATRSegment) (fs : DualAxisFunscript) (fid : Int) : DualAxisFunscript :=
  let pos := flow seg fid
  if seg.start_frame_id ≤ fid ∧ fid ≤ seg.end_frame_id then
    let frame_time_ms := pyRound ((fid : ℚ) / cfg.video_fps * 1000)
    let automatic_delay : ℚ :=
      if 1 < cfg.flow_history_window_smooth then
        ((cfg.flow_history_window_smooth - 1 : Int) : ℚ) / 2
      else 0
    let total_delay_frames : ℚ := (cfg.output_delay_frames : ℚ) + automatic_delay
    let delay_ms : ℚ :=
      if 0 < cfg.video_fps then total_delay_frames / cfg.video_fps * 1000 else 0
    let final_adjusted_time_ms := max 0 (pyRound ((frame_time_ms : ℚ) - delay_ms))
    let to_write : Option Int × Option Int :=
      if cfg.tracking_axis_mode = "both" then (some pos.1, some pos.2)
      else if cfg.tracking_axis_mode = "vertical" then
        if cfg.single_axis_output_target = "primary" then (some pos.1, none)
        else (none, some pos.1)
      else if cfg.tracking_axis_mode = "horizontal" then
        if cfg.single_axis_output_target = "primary" then (some pos.2, none)
        else (none, some pos.2)
      else (none, none)
    addAction fs final_adjusted_time_ms to_write.1 to_write.2
  else fs

/-- One segment of the loop (lines 152-380): warmup-extended frame window,
skipped entirely when it is empty (line 180). -/
def s3ProcessSegment (cfg : S3Config) (flow : ATRSegment → Int → Int × Int)
    (fs : DualAxisFunscript) (seg : ATRSegment) : DualAxisFunscript :=
  let aps := max 0 (seg.start_frame_id - cfg.num_warmup_frames_s3)
  let ape := seg.end_frame_id
  if ape - aps + 1 ≤ 0 then fs
  else (frameRange aps ape).foldl (s3ProcessFrame cfg flow seg) fs

/-- `Stage3OpticalFlowProcessor.process_segments` (lines 122-391): the result
dict's `primary_actions` / `secondary_actions` lists. -/
def processSegments (cfg : S3Config) (flow : ATRSegment → Int → Int × Int)
    (fs0 : DualAxisFunscript) (atr_segments : List ATRSegment) :
    List Action × List Action :=
  if atr_segments.filter (fun s => decide (¬ excludedPosition s.major_position)) = [] then
    ([], [])
  else
    let final := atr_segments.foldl
      (fun fs seg =>
        if excludedPosition seg.major_position then fs
        else s3ProcessSegment cfg flow fs seg) fs0
    (final.primary_actions, final.secondary_actions)

/-- The frame ids `process_segments` streams and processes: one
`stream_frames_for_segment` range per non-excluded segment (lines 152-193). -/
def processedFrames (warmup : Int) (segs : List ATRSegment) : List Int :=
  if segs.filter (fun s => decide (¬ excludedPosition s.major_position)) = [] then []
  else
    segs.foldl
      (fun acc seg =>
        if excludedPosition seg.major_position then acc
        else
          let aps := max 0 (seg.start_frame_id - warmup)
          let ape := seg.end_frame_id
          if ape - aps + 1 ≤ 0 then acc else acc ++ frameRange aps ape) []

/-! ### C9: excluded segments are skipped; warmup can touch their frames -/

theorem foldl_skip_eq_foldl_filter {β : Type} (g : β → ATRSegment → β)
    (segs : List ATRSegment) : ∀ init : β,
    segs.foldl (fun acc seg =>
        if excludedPosition seg.major_position then acc else g acc seg) init =
      (segs.filter (fun s => decide (¬ excludedPosition s.major_position))).foldl g init := by
  induction segs with
  | nil => intro init; rfl
  | cons seg t ih =>
    intro init
    by_cases h : excludedPosition seg.major_position
    · rw [List.foldl_cons, if_pos h, List.filter_cons, if_neg (by simp [h]), ih]
    · rw [List.foldl_cons, if_neg h, List.filter_cons, if_pos (by simp [h]),
        List.foldl_cons, ih]

theorem filter_not_excluded_idem (segs : List ATRSegment) :
    (segs.filter (fun s => decide (¬ excludedPosition s.major_position))).filter
        (fun s => decide (¬ excludedPosition s.major_position)) =
      segs.filter (fun s => decide (¬ excludedPosition s.major_position)) := by
  rw [List.filter_filter]
  congr 1
  funext s
  rw [Bool.and_self]

theorem frameRange_mem {s e fid : Int} (h : fid ∈ frameRange s e) :
    s ≤ fid ∧ fid ≤ e := by
  unfold frameRange at h
  rw [List.mem_map] at h
  obtain ⟨i, hi, hfid⟩ := h
  simp at hi
  obtain ⟨a, ha, rfl⟩ := hi
  omega

theorem processedFrames_foldl_mem (warmup : Int) (segs : List ATRSegment) :
    ∀ (acc : List Int) (fid : Int),
      fid ∈ segs.foldl
        (fun acc seg =>
          if excludedPosition seg.major_position then acc
          else
            let aps := max 0 (seg.start_frame_id - warmup)
            let ape := seg.end_frame_id
            if ape - aps + 1 ≤ 0 then acc else acc ++ frameRange aps ape) acc →
      fid ∈ acc ∨ ∃ seg ∈ segs, ¬ excludedPosition seg.major_position ∧
        max 0 (seg.start_frame_id - warmup) ≤ fid ∧ fid ≤ seg.end_frame_id := by
  induction segs with
  | nil => intro acc fid h; exact Or.inl h
  | cons seg t ih =>
    intro acc fid h
    rw [List.foldl_cons] at h
    by_cases hex : excludedPosition seg.major_position
    · rw [if_pos hex] at h
      rcases ih acc fid h with h2 | ⟨s2, hs2, hne, hb⟩
      · exact Or.inl h2
      · exact Or.inr ⟨s2, List.mem_cons_of_mem _ hs2, hne, hb⟩
    · rw [if_neg hex] at h
      dsimp only at h
      by_cases hempty : seg.end_frame_id - max 0 (seg.start_frame_id - warmup) + 1 ≤ 0
      · rw [if_pos hempty] at h
        rcases ih acc fid h with h2 | ⟨s2, hs2, hne, hb⟩
        · exact Or.inl h2
        · exact Or.inr ⟨s2, List.mem_cons_of_mem _ hs2, hne, hb⟩
      · rw [if_neg hempty] at h
        rcases ih _ fid h with h2 | ⟨s2, hs2, hne, hb⟩
        · rcases List.mem_append.mp h2 with h3 | h3
          · exact Or.inl h3
          · exact Or.inr ⟨seg, List.mem_cons_self _ _, hex, (frameRange_mem h3).1,
              (frameRange_mem h3).2⟩
        · exact Or.inr ⟨s2, List.mem_cons_of_mem _ hs2, hne, hb⟩

/-- **C9, amended.**  `process_segments` never emits funscript actions for a
"Not Relevant" / "Close Up" segment and only the remaining segments contribute:
the result (and the set of streamed frames) is exactly that of running on the
filtered relevant-segment list.  Frames are streamed only within a relevant
segment's warmup-extended window `[max(0, start - num_warmup_frames_s3), end]`
— which may include frame ids lying inside an adjacent excluded segment's own
span (see the counterexample), so "never processes frames of an excluded
segment" holds only up to those warmup frames. -/
theorem process_segments_excluded_skipped (cfg : S3Config)
    (flow : ATRSegment → Int → Int × Int) (fs0 : DualAxisFunscript)
    (segs : List ATRSegment) :
    processSegments cfg flow fs0 segs =
      processSegments cfg flow fs0
        (segs.filter (fun s => decide (¬ excludedPosition s.major_position))) ∧
    processedFrames cfg.num_warmup_frames_s3 segs =
      processedFrames cfg.num_warmup_frames_s3
        (segs.filter (fun s => decide (¬ excludedPosition s.major_position))) ∧
    ∀ fid ∈ processedFrames cfg.num_warmup_frames_s3 segs,
      ∃ seg ∈ segs, ¬ excludedPosition seg.major_position ∧
        max 0 (seg.start_frame_id - cfg.num_warmup_frames_s3) ≤ fid ∧
        fid ≤ seg.end_frame_id := by
  refine ⟨?_, ?_, ?_⟩
  · unfold processSegments
    rw [filter_not_excluded_idem]
    split
    · rfl
    · rw [foldl_skip_eq_foldl_filter, foldl_skip_eq_foldl_filter,
        filter_not_excluded_idem]
  · unfold processedFrames
    rw [filter_not_excluded_idem]
    split
    · rfl
    · rw [foldl_skip_eq_foldl_filter (fun acc seg =>
          let aps := max 0 (seg.start_frame_id - cfg.num_warmup_frames_s3)
          let ape := seg.end_frame_id
          if ape - aps + 1 ≤ 0 then acc else acc ++ frameRange aps ape),
        foldl_skip_eq_foldl_filter (fun acc seg =>
          let aps := max 0 (seg.start_frame_id - cfg.num_warmup_frames_s3)
          let ape := seg.end_frame_id
          if ape - aps + 1 ≤ 0 then acc else acc ++ frameRange aps ape),
        filter_not_excluded_idem]
  · intro fid hmem
    unfold processedFrames at hmem
    split at hmem
    · simp at hmem
    · rcases processedFrames_foldl_mem cfg.num_warmup_frames_s3 segs [] fid hmem with
        h | h
      · simp at h
      · exact h

/-- **C9, counterexample.**  With the default warmup of 10 frames and segments
`[(0,100,"Not Relevant"), (101,200,"Cowgirl / Missionary")]`, frame 91 — which
lies inside the excluded "Not Relevant" segment's span `[0,100]` — is streamed
and processed (as a warmup frame of the adjacent relevant segment), so the
claim's "never processes frames of any excluded segment" is false as stated. -/
theorem s3_streams_frames_inside_excluded_segment :
    excludedPosition "Not Relevant" ∧
    (91 : Int) ∈ processedFrames 10
      [⟨0, 100, "Not Relevant"⟩, ⟨101, 200, "Cowgirl / Missionary"⟩] ∧
    (0 : Int) ≤ 91 ∧ (91 : Int) ≤ 100 := by
  refine ⟨Or.inl rfl, ?_, by norm_num, by norm_num⟩
  decide

end FunGen
